import Mathlib

/-!
Elevator simulation (`src/elevator.cpp`)

A shallow embedding of the `Elevator` class.  Console output and the
`sleep_for` delays are not part of the object state and are left out; every
field of the class is kept.  `int` values are modelled as `Int`: floors stay
between the current floor and a requested floor, so no arithmetic wraps.

Loops and the recursion `move` / `processRequests` are driven by a fuel
counter; running out of fuel and indexing `floorRequests` outside its
bounds are reported as distinct faults.
-/

namespace ElevatorSim

/-- Direction tag `IDLE` (source line 13). -/
def IDLE : Int := 0

/-- Direction tag `UP` (source line 14). -/
def UP : Int := 1

/-- Direction tag `DOWN` (source line 15). -/
def DOWN : Int := -1

/-- Ways in which a run of the model stops without a result. -/
inductive Fault where
  | outOfFuel
  | outOfBounds
  deriving DecidableEq, Repr

deriving instance DecidableEq for Except

/-- The private fields of `class Elevator` (source lines 25-30).
`requestQueue` is a FIFO queue with its front at the head of the list,
`floorsVisited` is kept in insertion order, and `requestHistory` is a stack
with its top at the head of the list. -/
structure Elevator where
  currentFloor : Int
  direction : Int
  requestQueue : List Int
  floorsVisited : List Int
  floorRequests : List Bool
  requestHistory : List Int
  deriving DecidableEq, Repr

/-- Bounds-checked read of `floorRequests[i]` for an `int` index. -/
def readFlag (v : List Bool) (i : Int) : Except Fault Bool :=
  if 0 ≤ i ∧ i < (v.length : Int) then .ok (v.getD i.toNat false) else .error .outOfBounds

/-- Bounds-checked write `floorRequests[i] = b` for an `int` index. -/
def writeFlag (v : List Bool) (i : Int) (b : Bool) : Except Fault (List Bool) :=
  if 0 ≤ i ∧ i < (v.length : Int) then .ok (v.set i.toNat b) else .error .outOfBounds

/-- The constructor `Elevator(int numFloors)` (source lines 45-49), for a
non-negative floor count. -/
def Elevator.init (numFloors : Nat) : Elevator :=
  { currentFloor := 1
    direction := IDLE
    requestQueue := []
    floorsVisited := []
    floorRequests := List.replicate (numFloors + 1) false
    requestHistory := [] }

/-- The number of floors of the building, `floorRequests.size() - 1`. -/
def Elevator.numFloors (s : Elevator) : Int := (s.floorRequests.length : Int) - 1

/-- The value of `requested[f]`; `false` outside the vector. -/
def Elevator.requested (s : Elevator) (f : Int) : Bool :=
  decide (0 ≤ f) && s.floorRequests.getD f.toNat false

/-- One iteration of the body of the movement loop (source lines 88-92). -/
def loopBody (s : Elevator) : Elevator :=
  { s with
    currentFloor := s.currentFloor + s.direction
    floorsVisited := s.floorsVisited ++ [s.currentFloor + s.direction] }

/-- The loop `while (currentFloor != nextFloor)` of `move` (source lines 87-93). -/
def moveLoop : Nat → Elevator → Int → Except Fault Elevator
  | 0, _, _ => .error .outOfFuel
  | fuel + 1, s, nextFloor =>
    if s.currentFloor ≠ nextFloor then moveLoop fuel (loopBody s) nextFloor else .ok s

mutual

/-- `Elevator::move` (source lines 68-99). -/
def move : Nat → Elevator → Except Fault Elevator
  | 0, _ => .error .outOfFuel
  | fuel + 1, s =>
    match s.requestQueue with
    | [] => .ok { s with direction := IDLE }
    | nextFloor :: rest =>
      let s1 := { s with requestQueue := rest }
      if nextFloor > s1.currentFloor then
        match moveLoop fuel { s1 with direction := UP } nextFloor with
        | .error e => .error e
        | .ok s2 =>
          match writeFlag s2.floorRequests s2.currentFloor false with
          | .error e => .error e
          | .ok v => processRequests fuel { s2 with floorRequests := v }
      else if nextFloor < s1.currentFloor then
        match moveLoop fuel { s1 with direction := DOWN } nextFloor with
        | .error e => .error e
        | .ok s2 =>
          match writeFlag s2.floorRequests s2.currentFloor false with
          | .error e => .error e
          | .ok v => processRequests fuel { s2 with floorRequests := v }
      else .ok s1

/-- `Elevator::processRequests` (source lines 101-105). -/
def processRequests : Nat → Elevator → Except Fault Elevator
  | 0, _ => .error .outOfFuel
  | fuel + 1, s =>
    if s.requestQueue.isEmpty then .ok s
    else
      match move fuel s with
      | .error e => .error e
      | .ok s1 => processRequests fuel s1

end

/-- `Elevator::requestFloor` (source lines 51-66). -/
def requestFloor (fuel : Nat) (s : Elevator) (floor : Int) : Except Fault Elevator :=
  if floor < 1 ∨ floor ≥ (s.floorRequests.length : Int) then .ok s
  else
    match readFlag s.floorRequests floor with
    | .error e => .error e
    | .ok true => .ok s
    | .ok false =>
      match writeFlag s.floorRequests floor true with
      | .error e => .error e
      | .ok v =>
        processRequests fuel
          { s with
            floorRequests := v
            requestQueue := s.requestQueue ++ [floor]
            requestHistory := floor :: s.requestHistory }

/-- A sequence of `requestFloor` calls, as issued by the menu loop of `main`
(options 1 and 2, source lines 176-194). -/
def runRequests (fuel : Nat) : Elevator → List Int → Except Fault Elevator
  | s, [] => .ok s
  | s, r :: rs =>
    match requestFloor fuel s r with
    | .error e => .error e
    | .ok s1 => runRequests fuel s1 rs

/-- The floors passed on the way from `a` to `b`, `a` excluded and `b`
included: `a+1, ..., b` upwards or `a-1, ..., b` downwards. -/
def floorsBetween (a b : Int) : List Int :=
  if a < b then (List.range (b - a).toNat).map (fun (i : Nat) => a + 1 + (i : Int))
  else (List.range (a - b).toNat).map (fun (i : Nat) => a - 1 - (i : Int))

/-- The states of the movement loop after each of its iterations, in order:
`moveLoop` instrumented to record every intermediate state. -/
def moveLoopTrace : Nat → Elevator → Int → List Elevator
  | 0, _, _ => []
  | fuel + 1, s, nextFloor =>
    if s.currentFloor ≠ nextFloor then loopBody s :: moveLoopTrace fuel (loopBody s) nextFloor
    else []

/-- The un-stacking loop of `viewStatus` (source lines 130-133): pops
`tempStack` from the top and pushes each value at the back of `history`. -/
def unstack : List Int → List Int → List Int
  | [], history => history
  | top :: tempStack, history => unstack tempStack (history ++ [top])

/-- The request history as `viewStatus` prints it (source lines 128-137):
a copy of the stack is un-stacked and the result reversed. -/
def viewStatusHistory (s : Elevator) : List Int :=
  (unstack s.requestHistory []).reverse

/-- A call `requestFloor(floor)` is accepted in state `s` when `floor` is in
range and its flag is clear. -/
def accepts (s : Elevator) (floor : Int) : Bool :=
  decide (1 ≤ floor ∧ floor ≤ s.numFloors) && !s.requested floor

/-- The arguments of the accepted calls of a sequence of `requestFloor`
calls, in call order. -/
def acceptedRequests (fuel : Nat) : Elevator → List Int → List Int
  | _, [] => []
  | s, r :: rs =>
    match requestFloor fuel s r with
    | .error _ => []
    | .ok s1 =>
      if accepts s r then r :: acceptedRequests fuel s1 rs else acceptedRequests fuel s1 rs

/-- The states reachable from `Elevator(numFloors)` by `requestFloor` calls. -/
def Reachable (numFloors : Nat) (s : Elevator) : Prop :=
  ∃ (fuel : Nat) (reqs : List Int), runRequests fuel (Elevator.init numFloors) reqs = .ok s

/-- What holds between two calls of `requestFloor` in a building of
`numFloors` floors. -/
def RestInv (numFloors : Nat) (s : Elevator) : Prop :=
  s.requestQueue = [] ∧ s.floorRequests.length = numFloors + 1 ∧
    1 ≤ s.currentFloor ∧ s.currentFloor ≤ max (numFloors : Int) 1 ∧
    ∀ x ∈ s.floorsVisited, 1 ≤ x ∧ x ≤ (numFloors : Int)

/-- One line of the console output of `printElevatorStatus`: the heading,
a floor line `[ i ]` with or without the elevator marker, or the closing
empty line. -/
inductive StatusLine where
  | header
  | floor (i : Int) (elevator : Bool)
  | blank
  deriving DecidableEq, Repr

/-- The `for` loop of `printElevatorStatus` (source lines 34-40), counting
`i` down to 1. -/
def statusLoop (currentFloor : Int) : Nat → List StatusLine
  | 0 => []
  | i + 1 =>
    StatusLine.floor ((i + 1 : Nat) : Int) (decide (((i + 1 : Nat) : Int) = currentFloor)) ::
      statusLoop currentFloor i

/-- `Elevator::printElevatorStatus` (source lines 32-42): the lines written
and the state after the call. -/
def printElevatorStatus (s : Elevator) : List StatusLine × Elevator :=
  (StatusLine.header :: statusLoop s.currentFloor (s.floorRequests.length - 1) ++
    [StatusLine.blank], s)

/-- `Elevator::printFloorsVisited` (source lines 107-113): the floors
written and the state after the call. -/
def printFloorsVisited (s : Elevator) : List Int × Elevator :=
  (s.floorsVisited, s)

/-- `Elevator::idleTime` (source lines 115-118): a message and a delay. -/
def idleTime (s : Elevator) (_seconds : Int) : Elevator := s

/-- What `viewStatus` writes. -/
structure StatusReport where
  grid : List StatusLine
  visited : List Int
  history : List Int
  deriving DecidableEq, Repr

/-- `Elevator::viewStatus` (source lines 120-139): the report written and the
state after the call. -/
def viewStatus (s : Elevator) : StatusReport × Elevator :=
  ({ grid := (printElevatorStatus s).1
     visited := (printElevatorStatus s).2.floorsVisited
     history := viewStatusHistory (printElevatorStatus s).2 }, (printElevatorStatus s).2)

/-- What is recorded about the calls of `move`: the pending queue found on
entry, and the execution of its empty-queue branch. -/
inductive Event where
  | moveCalled (pending : List Int)
  | stayedIdle
  deriving DecidableEq, Repr

mutual

/-- `Elevator::move` (source lines 68-99), recording its calls. -/
def moveLog : Nat → Elevator → Except Fault (Elevator × List Event)
  | 0, _ => .error .outOfFuel
  | fuel + 1, s =>
    match s.requestQueue with
    | [] => .ok ({ s with direction := IDLE }, [Event.moveCalled [], Event.stayedIdle])
    | nextFloor :: rest =>
      let s1 := { s with requestQueue := rest }
      if nextFloor > s1.currentFloor then
        match moveLoop fuel { s1 with direction := UP } nextFloor with
        | .error e => .error e
        | .ok s2 =>
          match writeFlag s2.floorRequests s2.currentFloor false with
          | .error e => .error e
          | .ok v =>
            match processRequestsLog fuel { s2 with floorRequests := v } with
            | .error e => .error e
            | .ok (r, evs) => .ok (r, Event.moveCalled (nextFloor :: rest) :: evs)
      else if nextFloor < s1.currentFloor then
        match moveLoop fuel { s1 with direction := DOWN } nextFloor with
        | .error e => .error e
        | .ok s2 =>
          match writeFlag s2.floorRequests s2.currentFloor false with
          | .error e => .error e
          | .ok v =>
            match processRequestsLog fuel { s2 with floorRequests := v } with
            | .error e => .error e
            | .ok (r, evs) => .ok (r, Event.moveCalled (nextFloor :: rest) :: evs)
      else .ok (s1, [Event.moveCalled (nextFloor :: rest)])

/-- `Elevator::processRequests` (source lines 101-105), recording the calls
of `move`. -/
def processRequestsLog : Nat → Elevator → Except Fault (Elevator × List Event)
  | 0, _ => .error .outOfFuel
  | fuel + 1, s =>
    if s.requestQueue.isEmpty then .ok (s, [])
    else
      match moveLog fuel s with
      | .error e => .error e
      | .ok (s1, evs1) =>
        match processRequestsLog fuel s1 with
        | .error e => .error e
        | .ok (r, evs2) => .ok (r, evs1 ++ evs2)

end

/-- `Elevator::requestFloor` (source lines 51-66), recording the calls of
`move`. -/
def requestFloorLog (fuel : Nat) (s : Elevator) (floor : Int) :
    Except Fault (Elevator × List Event) :=
  if floor < 1 ∨ floor ≥ (s.floorRequests.length : Int) then .ok (s, [])
  else
    match readFlag s.floorRequests floor with
    | .error e => .error e
    | .ok true => .ok (s, [])
    | .ok false =>
      match writeFlag s.floorRequests floor true with
      | .error e => .error e
      | .ok v =>
        processRequestsLog fuel
          { s with
            floorRequests := v
            requestQueue := s.requestQueue ++ [floor]
            requestHistory := floor :: s.requestHistory }

/-- The operations that `main` issues on the elevator (source lines 176-204
and 214). -/
inductive Op where
  | requestFloor (floor : Int)
  | idleTime (seconds : Int)
  | viewStatus
  | printFloorsVisited
  deriving DecidableEq, Repr

/-- One operation issued by `main`, with the recorded calls of `move`. -/
def runOp (fuel : Nat) (s : Elevator) : Op → Except Fault (Elevator × List Event)
  | Op.requestFloor floor => requestFloorLog fuel s floor
  | Op.idleTime seconds => .ok (idleTime s seconds, [])
  | Op.viewStatus => .ok ((viewStatus s).2, [])
  | Op.printFloorsVisited => .ok ((printFloorsVisited s).2, [])

/-- A sequence of operations issued by `main`. -/
def runOps (fuel : Nat) : Elevator → List Op → Except Fault (Elevator × List Event)
  | s, [] => .ok (s, [])
  | s, op :: ops =>
    match runOp fuel s op with
    | .error e => .error e
    | .ok (s1, evs1) =>
      match runOps fuel s1 ops with
      | .error e => .error e
      | .ok (r, evs2) => .ok (r, evs1 ++ evs2)

/-- The single-request service step of the plain loop: take the front entry;
if it is the current floor skip it, else head for it, walk to it floor by
floor, logging each floor, and clear its flag. -/
def serviceStep (s : Elevator) (target : Int) : Elevator :=
  if target = s.currentFloor then { s with requestQueue := s.requestQueue.tail }
  else
    { currentFloor := target
      direction := if target > s.currentFloor then UP else DOWN
      requestQueue := s.requestQueue.tail
      floorsVisited := s.floorsVisited ++ floorsBetween s.currentFloor target
      floorRequests := s.floorRequests.set target.toNat false
      requestHistory := s.requestHistory }

/-- The plain FIFO loop: the service step folded over the queue from front
to back. -/
def drainLoop (s : Elevator) : Elevator :=
  s.requestQueue.foldl serviceStep s

/-- A state whose current floor and pending floors are all floors of the
building. -/
def WellFormed (s : Elevator) : Prop :=
  (1 ≤ s.currentFloor ∧ s.currentFloor ≤ s.numFloors) ∧
    ∀ x ∈ s.requestQueue, 1 ≤ x ∧ x ≤ s.numFloors

/-- Two floors one apart. -/
def adjacentFloors (a b : Int) : Prop := (a - b).natAbs = 1

/-- What every operation keeps: the visited log only grows at its end, the
history stack and the size of the flag vector are kept, and the queue only
loses entries at its front. -/
def Frame (s r : Elevator) : Prop :=
  s.floorsVisited <+: r.floorsVisited ∧ r.requestHistory = s.requestHistory ∧
    r.floorRequests.length = s.floorRequests.length ∧ r.requestQueue <:+ s.requestQueue

/-- Every pending floor is a valid index of the flag vector. -/
def QueueInBounds (s : Elevator) : Prop :=
  ∀ x ∈ s.requestQueue, 0 ≤ x ∧ x < (s.floorRequests.length : Int)

/-- Whether a line of the status grid carries the elevator marker. -/
def StatusLine.marked : StatusLine → Bool
  | StatusLine.floor _ true => true
  | _ => false

/-! ## The movement loop -/

theorem moveLoop_succ_ne (fuel : Nat) (s : Elevator) (nextFloor : Int)
    (h : s.currentFloor ≠ nextFloor) :
    moveLoop (fuel + 1) s nextFloor = moveLoop fuel (loopBody s) nextFloor := by
  simp [moveLoop, h]

theorem moveLoop_succ_eq (fuel : Nat) (s : Elevator) (nextFloor : Int)
    (h : s.currentFloor = nextFloor) :
    moveLoop (fuel + 1) s nextFloor = .ok s := by
  simp [moveLoop, h]

/-- Walking `d` floors in a non-zero direction `δ` takes `d` iterations and
logs the floors passed. -/
theorem moveLoop_walk (δ : Int) (hδ : δ ≠ 0) :
    ∀ (d fuel : Nat) (s : Elevator), s.direction = δ → d + 1 ≤ fuel →
      moveLoop fuel s (s.currentFloor + δ * d) =
        .ok { s with
              currentFloor := s.currentFloor + δ * d
              floorsVisited :=
                s.floorsVisited ++ (List.range d).map (fun (i : Nat) => s.currentFloor + δ * ((i : Int) + 1)) } := by
  intro d
  induction d with
  | zero =>
    intro fuel s _ hf
    obtain ⟨k, rfl⟩ : ∃ k, fuel = k + 1 := ⟨fuel - 1, by omega⟩
    rw [moveLoop_succ_eq _ _ _ (by simp)]
    simp
  | succ d ih =>
    intro fuel s hs hf
    obtain ⟨k, rfl⟩ : ∃ k, fuel = k + 1 := ⟨fuel - 1, by omega⟩
    have hne : s.currentFloor ≠ s.currentFloor + δ * ((d + 1 : Nat) : Int) := by
      intro h
      have h0 : δ * ((d + 1 : Nat) : Int) = 0 := by linarith
      rcases mul_eq_zero.mp h0 with h1 | h1
      · exact hδ h1
      · have : ((d + 1 : Nat) : Int) ≠ 0 := by positivity
        exact this h1
    rw [moveLoop_succ_ne _ _ _ hne]
    have hb : (loopBody s).direction = δ := by simp [loopBody, hs]
    have key := ih k (loopBody s) hb (by omega)
    have hc : (loopBody s).currentFloor + δ * (d : Int) = s.currentFloor + δ * ((d + 1 : Nat) : Int) := by
      simp [loopBody, hs]; ring
    rw [hc] at key
    rw [key]
    congr 1
    simp only [loopBody, hs, Elevator.mk.injEq, true_and, and_true]
    rw [List.range_succ_eq_map, List.map_cons, List.map_map, List.append_assoc]
    congr 1
    simp only [List.singleton_append, Nat.cast_zero, zero_add, mul_one, List.cons.injEq, true_and]
    apply List.map_congr_left
    intro i _
    simp only [Function.comp, Nat.cast_succ]
    ring

/-- The loop result when travelling from the current floor to `nextFloor`
in the direction `move` has just chosen. -/
theorem moveLoop_travel (fuel : Nat) (s : Elevator) (nextFloor : Int)
    (hne : nextFloor ≠ s.currentFloor)
    (hd : s.direction = if nextFloor > s.currentFloor then UP else DOWN)
    (hf : (nextFloor - s.currentFloor).natAbs + 1 ≤ fuel) :
    moveLoop fuel s nextFloor =
      .ok { s with
            currentFloor := nextFloor
            floorsVisited := s.floorsVisited ++ floorsBetween s.currentFloor nextFloor } := by
  by_cases hlt : nextFloor > s.currentFloor
  · rw [if_pos hlt] at hd
    have h := moveLoop_walk UP (by decide) (nextFloor - s.currentFloor).natAbs fuel s hd hf
    have e : s.currentFloor + UP * ((nextFloor - s.currentFloor).natAbs : Int) = nextFloor := by
      simp only [UP]; omega
    rw [e] at h
    rw [h]
    congr 2
    have hn : (nextFloor - s.currentFloor).toNat = (nextFloor - s.currentFloor).natAbs := by omega
    simp only [floorsBetween, if_pos (show s.currentFloor < nextFloor from hlt), hn, UP]
    congr 1
    apply List.map_congr_left
    intro i _
    ring
  · rw [if_neg hlt] at hd
    have hgt : nextFloor < s.currentFloor := by omega
    have h := moveLoop_walk DOWN (by decide) (nextFloor - s.currentFloor).natAbs fuel s hd hf
    have e : s.currentFloor + DOWN * ((nextFloor - s.currentFloor).natAbs : Int) = nextFloor := by
      simp only [DOWN]; omega
    rw [e] at h
    rw [h]
    congr 2
    have hn : (s.currentFloor - nextFloor).toNat = (nextFloor - s.currentFloor).natAbs := by omega
    simp only [floorsBetween, if_neg (show ¬ s.currentFloor < nextFloor by omega), hn, DOWN]
    congr 1
    apply List.map_congr_left
    intro i _
    ring

/-! ## Flags -/

theorem readFlag_inRange (v : List Bool) (i : Int) (h0 : 0 ≤ i) (h1 : i < (v.length : Int)) :
    readFlag v i = .ok (v.getD i.toNat false) := by
  simp [readFlag, h0, h1]

theorem writeFlag_inRange (v : List Bool) (i : Int) (b : Bool) (h0 : 0 ≤ i)
    (h1 : i < (v.length : Int)) :
    writeFlag v i b = .ok (v.set i.toNat b) := by
  simp [writeFlag, h0, h1]

theorem set_set_restore (v : List Bool) (i : Nat) (h : v.getD i false = false) :
    (v.set i true).set i false = v := by
  induction v generalizing i with
  | nil => simp
  | cons a t ih =>
    cases i with
    | zero => simp at h; simp [h]
    | succ j => simp at h; simp [ih j (by simpa using h)]

/-! ## Draining the queue -/

theorem processRequests_empty (fuel : Nat) (s : Elevator) (h : s.requestQueue = []) :
    processRequests (fuel + 1) s = .ok s := by
  simp [processRequests, h]

theorem processRequests_cons (fuel : Nat) (s : Elevator) (h : s.requestQueue ≠ []) :
    processRequests (fuel + 1) s =
      match move fuel s with
      | .error e => .error e
      | .ok s1 => processRequests fuel s1 := by
  simp [processRequests, h]

/-! ## Single calls of `requestFloor` -/

theorem requestFloor_invalid (fuel : Nat) (s : Elevator) (floor : Int)
    (h : floor < 1 ∨ floor > s.numFloors) : requestFloor fuel s floor = .ok s := by
  have h1 : floor < 1 ∨ floor ≥ (s.floorRequests.length : Int) := by
    simp only [Elevator.numFloors] at h; omega
  simp [requestFloor, h1]

theorem requested_eq (s : Elevator) (f : Int) (h0 : 0 ≤ f) :
    s.requested f = s.floorRequests.getD f.toNat false := by
  simp [Elevator.requested, h0]

theorem requestFloor_duplicate (fuel : Nat) (s : Elevator) (f : Int)
    (h1 : 1 ≤ f) (h2 : f ≤ s.numFloors) (hr : s.requested f = true) :
    requestFloor fuel s f = .ok s := by
  have h0 : (0 : Int) ≤ f := by omega
  have h3 : f < (s.floorRequests.length : Int) := by
    simp only [Elevator.numFloors] at h2; omega
  have h4 : ¬ (f < 1 ∨ f ≥ (s.floorRequests.length : Int)) := by omega
  rw [requested_eq s f h0] at hr
  simp only [requestFloor, if_neg h4, readFlag_inRange _ _ h0 h3, hr]

/-- An in-range request whose flag is clear is enqueued, recorded and
processed. -/
theorem requestFloor_accept (fuel : Nat) (s : Elevator) (f : Int)
    (h1 : 1 ≤ f) (h2 : f ≤ s.numFloors) (hr : s.requested f = false) :
    requestFloor fuel s f =
      processRequests fuel
        { s with
          floorRequests := s.floorRequests.set f.toNat true
          requestQueue := s.requestQueue ++ [f]
          requestHistory := f :: s.requestHistory } := by
  have h0 : (0 : Int) ≤ f := by omega
  have h3 : f < (s.floorRequests.length : Int) := by
    simp only [Elevator.numFloors] at h2; omega
  have h4 : ¬ (f < 1 ∨ f ≥ (s.floorRequests.length : Int)) := by omega
  rw [requested_eq s f h0] at hr
  simp only [requestFloor, if_neg h4, readFlag_inRange _ _ h0 h3, hr,
    writeFlag_inRange _ _ _ h0 h3]

/-! ## Single calls of `move` -/

theorem move_nil (fuel : Nat) (s : Elevator) (hq : s.requestQueue = []) :
    move (fuel + 1) s = .ok { s with direction := IDLE } := by
  simp only [move, hq]

theorem move_same (fuel : Nat) (s : Elevator) (f : Int) (rest : List Int)
    (hq : s.requestQueue = f :: rest) (hc : f = s.currentFloor) :
    move (fuel + 1) s = .ok { s with requestQueue := rest } := by
  have a : ¬ f > s.currentFloor := by omega
  have b : ¬ f < s.currentFloor := by omega
  simp only [move, hq, if_neg a, if_neg b]

theorem move_travel (fuel : Nat) (s : Elevator) (f : Int) (rest : List Int)
    (hq : s.requestQueue = f :: rest) (hc : f ≠ s.currentFloor)
    (h0 : 0 ≤ f) (h3 : f < (s.floorRequests.length : Int))
    (hf : (f - s.currentFloor).natAbs + 1 ≤ fuel) :
    move (fuel + 1) s =
      processRequests fuel
        { currentFloor := f
          direction := if f > s.currentFloor then UP else DOWN
          requestQueue := rest
          floorsVisited := s.floorsVisited ++ floorsBetween s.currentFloor f
          floorRequests := s.floorRequests.set f.toNat false
          requestHistory := s.requestHistory } := by
  by_cases hlt : f > s.currentFloor
  · have e := moveLoop_travel fuel
      { s with requestQueue := rest, direction := UP } f hc (by simp only [if_pos hlt]) hf
    simp only [move, hq, if_pos hlt, e, writeFlag_inRange _ _ _ h0 h3]
  · have hgt : f < s.currentFloor := by omega
    have e := moveLoop_travel fuel
      { s with requestQueue := rest, direction := DOWN } f hc (by simp only [if_neg hlt]) hf
    simp only [move, hq, if_neg hlt, if_pos hgt, e, writeFlag_inRange _ _ _ h0 h3]

/-- An accepted request for the floor the elevator rests on. -/
theorem requestFloor_stall (fuel : Nat) (s : Elevator) (f : Int)
    (hq : s.requestQueue = []) (h1 : 1 ≤ f) (h2 : f ≤ s.numFloors)
    (hr : s.requested f = false) (hc : f = s.currentFloor) (hf : 2 ≤ fuel) :
    requestFloor fuel s f =
      .ok { s with
            floorRequests := s.floorRequests.set f.toNat true
            requestHistory := f :: s.requestHistory } := by
  obtain ⟨k, rfl⟩ : ∃ k, fuel = k + 1 + 1 := ⟨fuel - 2, by omega⟩
  rw [requestFloor_accept _ s f h1 h2 hr, processRequests_cons _ _ (by simp),
    move_same k
      { s with
        floorRequests := s.floorRequests.set f.toNat true
        requestQueue := s.requestQueue ++ [f]
        requestHistory := f :: s.requestHistory } f [] (by simp [hq]) hc]
  simp only [hq]
  rw [processRequests_empty _ _ rfl]

/-- An accepted request for another floor, issued at rest. -/
theorem requestFloor_travel (fuel : Nat) (s : Elevator) (f : Int)
    (hq : s.requestQueue = []) (h1 : 1 ≤ f) (h2 : f ≤ s.numFloors)
    (hr : s.requested f = false) (hc : f ≠ s.currentFloor)
    (hf : (f - s.currentFloor).natAbs + 3 ≤ fuel) :
    requestFloor fuel s f =
      .ok { currentFloor := f
            direction := if f > s.currentFloor then UP else DOWN
            requestQueue := []
            floorsVisited := s.floorsVisited ++ floorsBetween s.currentFloor f
            floorRequests := s.floorRequests
            requestHistory := f :: s.requestHistory } := by
  have h0 : (0 : Int) ≤ f := by omega
  have h3 : f < (s.floorRequests.length : Int) := by
    simp only [Elevator.numFloors] at h2; omega
  obtain ⟨k, rfl⟩ : ∃ k, fuel = k + 1 + 1 + 1 := ⟨fuel - 3, by omega⟩
  rw [requestFloor_accept _ s f h1 h2 hr, processRequests_cons _ _ (by simp),
    move_travel (k + 1)
      { s with
        floorRequests := s.floorRequests.set f.toNat true
        requestQueue := s.requestQueue ++ [f]
        requestHistory := f :: s.requestHistory } f [] (by simp [hq]) hc h0 (by simpa using h3) (by simp only []; omega)]
  rw [requested_eq s f h0] at hr
  simp only [set_set_restore _ _ hr]
  rw [processRequests_empty _ _ rfl]
  simp only []
  rw [processRequests_empty _ _ rfl]

/-! ## More fuel never changes a result -/

theorem moveLoop_mono : ∀ (fuel : Nat) (s : Elevator) (nextFloor : Int) (r : Elevator),
    moveLoop fuel s nextFloor = .ok r → moveLoop (fuel + 1) s nextFloor = .ok r := by
  intro fuel
  induction fuel with
  | zero => intro s n r h; simp [moveLoop] at h
  | succ k ih =>
    intro s n r h
    by_cases hc : s.currentFloor = n
    · rw [moveLoop_succ_eq _ _ _ hc] at h ⊢
      exact h
    · rw [moveLoop_succ_ne _ _ _ hc] at h ⊢
      exact ih _ _ _ h

theorem move_processRequests_mono : ∀ (fuel : Nat),
    (∀ (s r : Elevator), move fuel s = .ok r → move (fuel + 1) s = .ok r) ∧
    (∀ (s r : Elevator), processRequests fuel s = .ok r →
      processRequests (fuel + 1) s = .ok r) := by
  intro fuel
  induction fuel with
  | zero =>
    constructor
    · intro s r h; simp [move] at h
    · intro s r h; simp [processRequests] at h
  | succ k ih =>
    obtain ⟨ihm, ihp⟩ := ih
    constructor
    · intro s r h
      rw [move] at h ⊢
      cases hq : s.requestQueue with
      | nil => simpa only [hq] using h
      | cons f rest =>
        simp only [hq] at h ⊢
        split_ifs at h ⊢ with c1 c2
        · cases hl : moveLoop k { s with requestQueue := rest, direction := UP } f with
          | error e => simp [hl] at h
          | ok s2 =>
            rw [moveLoop_mono _ _ _ _ hl]
            simp only [hl] at h ⊢
            cases hw : writeFlag s2.floorRequests s2.currentFloor false with
            | error e => simp [hw] at h
            | ok v =>
              simp only [hw] at h ⊢
              exact ihp _ _ h
        · cases hl : moveLoop k { s with requestQueue := rest, direction := DOWN } f with
          | error e => simp [hl] at h
          | ok s2 =>
            rw [moveLoop_mono _ _ _ _ hl]
            simp only [hl] at h ⊢
            cases hw : writeFlag s2.floorRequests s2.currentFloor false with
            | error e => simp [hw] at h
            | ok v =>
              simp only [hw] at h ⊢
              exact ihp _ _ h
        · exact h
    · intro s r h
      by_cases hq : s.requestQueue = []
      · rw [processRequests_empty _ _ hq] at h ⊢
        exact h
      · rw [processRequests_cons _ _ hq] at h ⊢
        cases hm : move k s with
        | error e => simp [hm] at h
        | ok s1 =>
          rw [ihm _ _ hm]
          simp only [hm] at h ⊢
          exact ihp _ _ h

theorem processRequests_mono_le (fuel fuel2 : Nat) (hle : fuel ≤ fuel2) (s r : Elevator)
    (h : processRequests fuel s = .ok r) : processRequests fuel2 s = .ok r := by
  induction hle with
  | refl => exact h
  | step _ ih => exact (move_processRequests_mono _).2 _ _ ih

theorem requestFloor_mono_le (fuel fuel2 : Nat) (hle : fuel ≤ fuel2) (s r : Elevator)
    (floor : Int) (h : requestFloor fuel s floor = .ok r) :
    requestFloor fuel2 s floor = .ok r := by
  unfold requestFloor at h ⊢
  split_ifs at h ⊢ with c
  · exact h
  · cases hr : readFlag s.floorRequests floor with
    | error e => simp [hr] at h
    | ok b =>
      cases b with
      | true => simpa only [hr] using h
      | false =>
        simp only [hr] at h ⊢
        cases hw : writeFlag s.floorRequests floor true with
        | error e => simp [hw] at h
        | ok v =>
          simp only [hw] at h ⊢
          exact processRequests_mono_le _ _ hle _ _ h

theorem runRequests_mono_le (fuel fuel2 : Nat) (hle : fuel ≤ fuel2) :
    ∀ (reqs : List Int) (s r : Elevator),
      runRequests fuel s reqs = .ok r → runRequests fuel2 s reqs = .ok r := by
  intro reqs
  induction reqs with
  | nil => intro s r h; simpa [runRequests] using h
  | cons a rest ih =>
    intro s r h
    rw [runRequests] at h ⊢
    cases hq : requestFloor fuel s a with
    | error e => simp [hq] at h
    | ok s1 =>
      rw [requestFloor_mono_le _ _ hle _ _ _ hq]
      simp only [hq] at h ⊢
      exact ih _ _ h

/-! ## The outcome of a call issued at rest -/

/-- A successful call issued at rest either rejects the request, stalls on
the current floor, or travels to the requested floor. -/
theorem requestFloor_cases (fuel : Nat) (s r : Elevator) (f : Int)
    (hq : s.requestQueue = []) (h : requestFloor fuel s f = .ok r) :
    (accepts s f = false ∧ r = s) ∨
    (accepts s f = true ∧ f = s.currentFloor ∧
      r = { s with
            floorRequests := s.floorRequests.set f.toNat true
            requestHistory := f :: s.requestHistory }) ∨
    (accepts s f = true ∧ f ≠ s.currentFloor ∧
      r = { currentFloor := f
            direction := if f > s.currentFloor then UP else DOWN
            requestQueue := []
            floorsVisited := s.floorsVisited ++ floorsBetween s.currentFloor f
            floorRequests := s.floorRequests
            requestHistory := f :: s.requestHistory }) := by
  by_cases hin : 1 ≤ f ∧ f ≤ s.numFloors
  · cases hr : s.requested f with
    | true =>
      left
      rw [requestFloor_duplicate fuel s f hin.1 hin.2 hr] at h
      exact ⟨by simp [accepts, hr], by injection h with h; exact h.symm⟩
    | false =>
      right
      have ha : accepts s f = true := by simp [accepts, hr, hin]
      by_cases hc : f = s.currentFloor
      · left
        have h2 := requestFloor_mono_le fuel (fuel + 2) (by omega) _ _ _ h
        rw [requestFloor_stall _ s f hq hin.1 hin.2 hr hc (by omega)] at h2
        exact ⟨ha, hc, by injection h2 with h2; exact h2.symm⟩
      · right
        have h2 := requestFloor_mono_le fuel (fuel + ((f - s.currentFloor).natAbs + 3))
          (by omega) _ _ _ h
        rw [requestFloor_travel _ s f hq hin.1 hin.2 hr hc (by omega)] at h2
        exact ⟨ha, hc, by injection h2 with h2; exact h2.symm⟩
  · left
    rw [requestFloor_invalid fuel s f (by omega)] at h
    refine ⟨?_, by injection h with h; exact h.symm⟩
    simp only [accepts, Bool.and_eq_false_imp, decide_eq_true_eq]
    intro h'; exact absurd h' hin

theorem floorsBetween_bounds (a b lo hi : Int) (ha : lo ≤ a ∧ a ≤ hi) (hb : lo ≤ b ∧ b ≤ hi) :
    ∀ x ∈ floorsBetween a b, lo ≤ x ∧ x ≤ hi := by
  intro x hx
  unfold floorsBetween at hx
  split_ifs at hx with h
  · simp only [List.mem_map, List.mem_range] at hx
    obtain ⟨i, hi1, rfl⟩ := hx
    omega
  · simp only [List.mem_map, List.mem_range] at hx
    obtain ⟨i, hi1, rfl⟩ := hx
    omega

theorem accepts_inRange (s : Elevator) (f : Int) (h : accepts s f = true) :
    1 ≤ f ∧ f ≤ s.numFloors ∧ s.requested f = false := by
  simp only [accepts, Bool.and_eq_true, decide_eq_true_eq, Bool.not_eq_true'] at h
  exact ⟨h.1.1, h.1.2, h.2⟩

theorem restInv_init (n : Nat) : RestInv n (Elevator.init n) := by
  refine ⟨rfl, by simp [Elevator.init], by simp [Elevator.init], by simp [Elevator.init], ?_⟩
  intro x hx
  simp [Elevator.init] at hx

theorem restInv_requestFloor (n fuel : Nat) (s r : Elevator) (f : Int)
    (hs : RestInv n s) (h : requestFloor fuel s f = .ok r) : RestInv n r := by
  obtain ⟨hq, hl, h1, h2, hv⟩ := hs
  rcases requestFloor_cases fuel s r f hq h with ⟨_, rfl⟩ | ⟨_, _, rfl⟩ | ⟨ha, hc, rfl⟩
  · exact ⟨hq, hl, h1, h2, hv⟩
  · exact ⟨hq, by simpa using hl, h1, h2, hv⟩
  · obtain ⟨a1, a2, _⟩ := accepts_inRange s f ha
    simp only [Elevator.numFloors, hl] at a2
    push_cast at a2
    have a3 : f ≤ (n : Int) := by omega
    have hn : 1 ≤ (n : Int) := by omega
    have hmax : max (n : Int) 1 = n := max_eq_left hn
    rw [hmax] at h2
    refine ⟨rfl, hl, a1, by rw [hmax]; exact a3, ?_⟩
    intro x hx
    simp only [List.mem_append] at hx
    rcases hx with hx | hx
    · exact hv x hx
    · exact floorsBetween_bounds _ _ 1 n ⟨h1, h2⟩ ⟨a1, a3⟩ x hx

theorem restInv_runRequests (n fuel : Nat) : ∀ (reqs : List Int) (s r : Elevator),
    RestInv n s → runRequests fuel s reqs = .ok r → RestInv n r := by
  intro reqs
  induction reqs with
  | nil =>
    intro s r hs h
    simp only [runRequests] at h
    injection h with h
    exact h ▸ hs
  | cons a rest ih =>
    intro s r hs h
    rw [runRequests] at h
    cases hq : requestFloor fuel s a with
    | error e => simp [hq] at h
    | ok s1 =>
      simp only [hq] at h
      exact ih s1 r (restInv_requestFloor n fuel s s1 a hs hq) h

theorem restInv_of_reachable (n : Nat) (s : Elevator) (h : Reachable n s) : RestInv n s := by
  obtain ⟨fuel, reqs, hr⟩ := h
  exact restInv_runRequests n fuel reqs _ _ (restInv_init n) hr

/-- With `numFloors + 2` units of fuel every call issued at rest returns. -/
theorem requestFloor_total (n fuel : Nat) (s : Elevator) (f : Int)
    (hs : RestInv n s) (hf : n + 2 ≤ fuel) : ∃ r, requestFloor fuel s f = .ok r := by
  obtain ⟨hq, hl, h1, h2, _⟩ := hs
  by_cases hin : 1 ≤ f ∧ f ≤ s.numFloors
  · cases hr : s.requested f with
    | true => exact ⟨s, requestFloor_duplicate fuel s f hin.1 hin.2 hr⟩
    | false =>
      by_cases hc : f = s.currentFloor
      · exact ⟨_, requestFloor_stall fuel s f hq hin.1 hin.2 hr hc (by omega)⟩
      · refine ⟨_, requestFloor_travel fuel s f hq hin.1 hin.2 hr hc ?_⟩
        have a2 := hin.2
        simp only [Elevator.numFloors, hl] at a2
        push_cast at a2
        have hn : 1 ≤ (n : Int) := by omega
        rw [max_eq_left hn] at h2
        omega
  · exact ⟨s, requestFloor_invalid fuel s f (by omega)⟩

theorem runRequests_total (n fuel : Nat) (hf : n + 2 ≤ fuel) : ∀ (reqs : List Int) (s : Elevator),
    RestInv n s → ∃ r, runRequests fuel s reqs = .ok r := by
  intro reqs
  induction reqs with
  | nil => intro s _; exact ⟨s, rfl⟩
  | cons a rest ih =>
    intro s hs
    obtain ⟨s1, h1⟩ := requestFloor_total n fuel s a hs hf
    obtain ⟨r, h2⟩ := ih s1 (restInv_requestFloor n fuel s s1 a hs h1)
    exact ⟨r, by rw [runRequests, h1]; exact h2⟩

/-! ## Claims C1-C5: single requests -/

/-- C1: in a building of `numFloors ≥ 1` floors, for every state reachable
from `Elevator(numFloors)` by `requestFloor` calls and every floor `f` with
`1 ≤ f ≤ numFloors`, `requested[f] = false` and `f ≠ currentFloor`, the call
`requestFloor(f)` returns (with `numFloors + 2` units of fuel or more) and
leaves `currentFloor = f`, `requested[f] = false` and `pendingRequests`
empty. -/
theorem C1_request_reaches_floor (numFloors : Nat) (_hn : 1 ≤ numFloors) (s : Elevator)
    (hs : Reachable numFloors s) (f : Int) (h1 : 1 ≤ f) (h2 : f ≤ (numFloors : Int))
    (hr : s.requested f = false) (hc : f ≠ s.currentFloor)
    (fuel : Nat) (hf : numFloors + 2 ≤ fuel) :
    ∃ r, requestFloor fuel s f = .ok r ∧
      r.currentFloor = f ∧ r.requested f = false ∧ r.requestQueue = [] := by
  obtain ⟨hq, hl, c1, c2, _⟩ := restInv_of_reachable numFloors s hs
  have hnf : s.numFloors = numFloors := by simp [Elevator.numFloors, hl]
  have hn1 : (1 : Int) ≤ numFloors := by omega
  rw [max_eq_left hn1] at c2
  refine ⟨_, requestFloor_travel fuel s f hq h1 (by rw [hnf]; exact h2) hr hc (by omega),
    rfl, ?_, rfl⟩
  simpa only [Elevator.requested] using hr

/-- Witness of C1: floor 3 requested in the initial state of a five-floor
building. -/
theorem C1_request_reaches_floor_witness :
    ∃ r, requestFloor 7 (Elevator.init 5) 3 = .ok r ∧
      r.currentFloor = 3 ∧ r.requested 3 = false ∧ r.requestQueue = [] :=
  C1_request_reaches_floor 5 (by decide) (Elevator.init 5) ⟨0, [], rfl⟩ 3 (by decide)
    (by decide) (by decide) (by decide) 7 (by decide)

theorem floorsBetween_length (a b : Int) : (floorsBetween a b).length = (a - b).natAbs := by
  unfold floorsBetween
  split_ifs with h
  · simp only [List.length_map, List.length_range]; omega
  · simp only [List.length_map, List.length_range]; omega

theorem not_mem_floorsBetween (a b : Int) : a ∉ floorsBetween a b := by
  intro hx
  unfold floorsBetween at hx
  split_ifs at hx with h
  · simp only [List.mem_map, List.mem_range] at hx
    obtain ⟨i, _, hi⟩ := hx
    omega
  · simp only [List.mem_map, List.mem_range] at hx
    obtain ⟨i, _, hi⟩ := hx
    omega

/-- C2: for every accepted `requestFloor(B)` (in range, flag clear) issued
while the elevator rests (empty queue) at floor `A = currentFloor` with
`A ≠ B`, the call returns and the new `visitedLog` is the old one followed
by `floorsBetween A B`, that is `A+1, ..., B` when `B > A` and
`A-1, ..., B` when `B < A`: `|A - B|` entries, `A` not among them. -/
theorem C2_visitedLog_extension (s : Elevator) (B : Int) (fuel : Nat)
    (hq : s.requestQueue = []) (h1 : 1 ≤ B) (h2 : B ≤ s.numFloors)
    (hr : s.requested B = false) (hne : s.currentFloor ≠ B)
    (hf : (B - s.currentFloor).natAbs + 3 ≤ fuel) :
    ∃ r, requestFloor fuel s B = .ok r ∧
      r.floorsVisited = s.floorsVisited ++ floorsBetween s.currentFloor B ∧
      (floorsBetween s.currentFloor B).length = (s.currentFloor - B).natAbs ∧
      s.currentFloor ∉ floorsBetween s.currentFloor B :=
  ⟨_, requestFloor_travel fuel s B hq h1 h2 hr (fun h => hne h.symm) hf, rfl,
    floorsBetween_length _ _, not_mem_floorsBetween _ _⟩

/-- Witness of C2: with five floors, requesting floor 3 in the initial state
gives `visitedLog = [2, 3]`, `currentFloor = 3` and `requested[3] = false`. -/
theorem C2_visitedLog_extension_witness :
    (∃ r, requestFloor 5 (Elevator.init 5) 3 = .ok r ∧
      r.floorsVisited = (Elevator.init 5).floorsVisited ++ floorsBetween (Elevator.init 5).currentFloor 3 ∧
      (floorsBetween (Elevator.init 5).currentFloor 3).length = ((Elevator.init 5).currentFloor - 3).natAbs ∧
      (Elevator.init 5).currentFloor ∉ floorsBetween (Elevator.init 5).currentFloor 3) ∧
    floorsBetween 1 3 = [2, 3] ∧
    requestFloor 5 (Elevator.init 5) 3 =
      .ok { currentFloor := 3, direction := UP, requestQueue := [], floorsVisited := [2, 3],
            floorRequests := [false, false, false, false, false, false],
            requestHistory := [3] } :=
  ⟨C2_visitedLog_extension (Elevator.init 5) 3 5 rfl (by decide) (by decide) (by decide)
    (by decide) (by decide), by decide, by decide⟩

/-- C3: for every state and every integer `floor` with `floor < 1` or
`floor > numFloors`, `requestFloor(floor)` returns the state it was given:
no field of the elevator changes, so nothing is enqueued. -/
theorem C3_invalid_floor_unchanged (fuel : Nat) (s : Elevator) (floor : Int)
    (h : floor < 1 ∨ floor > s.numFloors) : requestFloor fuel s floor = .ok s :=
  requestFloor_invalid fuel s floor h

/-- Witness of C3: floor 7 in a five-floor building. -/
theorem C3_invalid_floor_unchanged_witness :
    requestFloor 0 (Elevator.init 5) 7 = .ok (Elevator.init 5) :=
  C3_invalid_floor_unchanged 0 (Elevator.init 5) 7 (by decide)

/-- C4: for every state and every in-range floor `f` whose flag
`requested[f]` is set, `requestFloor(f)` returns the state it was given: no
field of the elevator changes. -/
theorem C4_duplicate_unchanged (fuel : Nat) (s : Elevator) (f : Int)
    (h1 : 1 ≤ f) (h2 : f ≤ s.numFloors) (hr : s.requested f = true) :
    requestFloor fuel s f = .ok s :=
  requestFloor_duplicate fuel s f h1 h2 hr

/-- Witness of C4: floor 2 of three is requested while its flag is set and
it is still queued. -/
theorem C4_duplicate_unchanged_witness :
    requestFloor 0
        { currentFloor := 1, direction := IDLE, requestQueue := [2], floorsVisited := [],
          floorRequests := [false, false, true, false], requestHistory := [2] } 2 =
      .ok { currentFloor := 1, direction := IDLE, requestQueue := [2], floorsVisited := [],
            floorRequests := [false, false, true, false], requestHistory := [2] } :=
  C4_duplicate_unchanged 0 _ 2 (by decide) (by decide) (by decide)

theorem unstack_eq (l h : List Int) : unstack l h = h ++ l := by
  induction l generalizing h with
  | nil => simp [unstack]
  | cons a t ih => simp [unstack, ih]

theorem viewStatusHistory_eq (s : Elevator) : viewStatusHistory s = s.requestHistory.reverse := by
  simp [viewStatusHistory, unstack_eq]

theorem requested_set_self (v : List Bool) (f : Int) (h0 : 0 ≤ f) (h3 : f < (v.length : Int)) :
    (decide (0 ≤ f) && (v.set f.toNat true).getD f.toNat false) = true := by
  have : f.toNat < v.length := by omega
  simp [h0, this]

/-- C5 (stall case): for every state at rest and in-range floor `f` with
`f = currentFloor` and `requested[f] = false`, `requestFloor(f)` returns, `f`
is pushed on `requestHistory` (appended to the oldest-first history), and on
return `requested[f] = true`, `pendingRequests` is empty, and `currentFloor`,
`direction` and `visitedLog` are unchanged. -/
theorem C5_same_floor_stall (s : Elevator) (f : Int) (fuel : Nat)
    (hq : s.requestQueue = []) (h1 : 1 ≤ f) (h2 : f ≤ s.numFloors)
    (hc : f = s.currentFloor) (hr : s.requested f = false) (hf : 2 ≤ fuel) :
    ∃ r, requestFloor fuel s f = .ok r ∧
      r.requestHistory = f :: s.requestHistory ∧
      viewStatusHistory r = viewStatusHistory s ++ [f] ∧
      r.requested f = true ∧ r.requestQueue = [] ∧
      r.currentFloor = s.currentFloor ∧ r.direction = s.direction ∧
      r.floorsVisited = s.floorsVisited := by
  refine ⟨_, requestFloor_stall fuel s f hq h1 h2 hr hc hf, rfl, ?_, ?_, hq, rfl, rfl, rfl⟩
  · simp [viewStatusHistory_eq]
  · have h3 : f < (s.floorRequests.length : Int) := by
      simp only [Elevator.numFloors] at h2; omega
    exact requested_set_self s.floorRequests f (by omega) h3

/-- Witness of C5: floor 1 requested in the initial state of a three-floor
building. -/
theorem C5_same_floor_stall_witness :
    ∃ r, requestFloor 2 (Elevator.init 3) 1 = .ok r ∧
      r.requestHistory = 1 :: (Elevator.init 3).requestHistory ∧
      viewStatusHistory r = viewStatusHistory (Elevator.init 3) ++ [1] ∧
      r.requested 1 = true ∧ r.requestQueue = [] ∧
      r.currentFloor = (Elevator.init 3).currentFloor ∧
      r.direction = (Elevator.init 3).direction ∧
      r.floorsVisited = (Elevator.init 3).floorsVisited :=
  C5_same_floor_stall (Elevator.init 3) 1 2 rfl (by decide) (by decide) (by decide)
    (by decide) (by decide)

/-! ## Claim C6: a stalled flag stays set -/

theorem requested_set_true (v : List Bool) (i : Nat) (g : Int)
    (h : (decide (0 ≤ g) && v.getD g.toNat false) = true) :
    (decide (0 ≤ g) && (v.set i true).getD g.toNat false) = true := by
  simp only [Bool.and_eq_true, decide_eq_true_eq] at h ⊢
  refine ⟨h.1, ?_⟩
  have h2 := h.2
  simp only [List.getD_eq_getElem?_getD, List.getElem?_set] at h2 ⊢
  by_cases e : i = g.toNat
  · subst e
    by_cases hl : g.toNat < v.length
    · simp [hl]
    · simp [List.getElem?_eq_none (Nat.le_of_not_lt hl)] at h2
  · simp [e, h2]

/-- One call issued at rest with a set flag `f`: it returns, the elevator is
at rest again and the flag is still set. -/
theorem requestFloor_keeps_flag (s : Elevator) (f g : Int) (fuel L : Nat)
    (hq : s.requestQueue = []) (hr : s.requested f = true)
    (hl : s.floorRequests.length = L)
    (hb : s.currentFloor.natAbs + L + 2 ≤ fuel) (hL : 2 * L + 2 ≤ fuel) :
    ∃ r, requestFloor fuel s g = .ok r ∧ r.requestQueue = [] ∧ r.requested f = true ∧
      r.floorRequests.length = L ∧ r.currentFloor.natAbs + L + 2 ≤ fuel := by
  by_cases hin : 1 ≤ g ∧ g ≤ s.numFloors
  · cases hg : s.requested g with
    | true => exact ⟨s, requestFloor_duplicate fuel s g hin.1 hin.2 hg, hq, hr, hl, hb⟩
    | false =>
      have a2 := hin.2
      simp only [Elevator.numFloors, hl] at a2
      by_cases hc : g = s.currentFloor
      · refine ⟨_, requestFloor_stall fuel s g hq hin.1 hin.2 hg hc (by omega), hq, ?_,
          by simpa using hl, hb⟩
        exact requested_set_true s.floorRequests g.toNat f hr
      · refine ⟨_, requestFloor_travel fuel s g hq hin.1 hin.2 hg hc (by omega), rfl, ?_,
          hl, ?_⟩
        · simpa only [Elevator.requested] using hr
        · simp only []; omega
  · exact ⟨s, requestFloor_invalid fuel s g (by omega), hq, hr, hl, hb⟩

theorem runRequests_keeps_flag (f : Int) (fuel L : Nat) (hL : 2 * L + 2 ≤ fuel) :
    ∀ (reqs : List Int) (s : Elevator), s.requestQueue = [] → s.requested f = true →
      s.floorRequests.length = L → s.currentFloor.natAbs + L + 2 ≤ fuel →
      ∃ r, runRequests fuel s reqs = .ok r ∧ r.requestQueue = [] ∧ r.requested f = true := by
  intro reqs
  induction reqs with
  | nil => intro s hq hr _ _; exact ⟨s, rfl, hq, hr⟩
  | cons g rest ih =>
    intro s hq hr hl hb
    obtain ⟨s1, e1, q1, r1, l1, b1⟩ := requestFloor_keeps_flag s f g fuel L hq hr hl hb hL
    obtain ⟨r, e2, q2, r2⟩ := ih s1 q1 r1 l1 b1
    exact ⟨r, by rw [runRequests, e1]; exact e2, q2, r2⟩

/-- A request for a floor whose flag is set is rejected, whatever the
floor. -/
theorem requestFloor_flagged (fuel : Nat) (s : Elevator) (f : Int)
    (hr : s.requested f = true) : requestFloor fuel s f = .ok s := by
  by_cases hin : 1 ≤ f ∧ f ≤ s.numFloors
  · exact requestFloor_duplicate fuel s f hin.1 hin.2 hr
  · exact requestFloor_invalid fuel s f (by omega)

/-- C6 (the stall is permanent): for every state at rest in which
`requested[f] = true`, every finite sequence `reqs` of later `requestFloor`
calls with arbitrary integer arguments and every `k`, the first `k` calls of
the sequence return, `requested[f]` is still true after them, and a call
`requestFloor(f)` made at that point returns the state unchanged. -/
theorem C6_stall_permanent (s : Elevator) (f : Int) (fuel : Nat)
    (hq : s.requestQueue = []) (hr : s.requested f = true)
    (hf : s.currentFloor.natAbs + 2 * s.floorRequests.length + 2 ≤ fuel)
    (reqs : List Int) (k : Nat) :
    ∃ r, runRequests fuel s (reqs.take k) = .ok r ∧ r.requested f = true ∧
      requestFloor fuel r f = .ok r := by
  obtain ⟨r, e, _, hr2⟩ := runRequests_keeps_flag f fuel s.floorRequests.length (by omega)
    (reqs.take k) s hq hr rfl (by omega)
  exact ⟨r, e, hr2, requestFloor_flagged fuel r f hr2⟩

/-- Witness of C6: with three floors, floor 1 is requested in the initial
state; its flag then survives the calls `2, 1, 3, 1`. -/
theorem C6_stall_permanent_witness :
    requestFloor 2 (Elevator.init 3) 1 =
      .ok { currentFloor := 1, direction := IDLE, requestQueue := [], floorsVisited := [],
            floorRequests := [false, true, false, false], requestHistory := [1] } ∧
    ∃ r, runRequests 11
        { currentFloor := 1, direction := IDLE, requestQueue := [], floorsVisited := [],
          floorRequests := [false, true, false, false], requestHistory := [1] }
        ([2, 1, 3, 1].take 4) = .ok r ∧
      r.requested 1 = true ∧ requestFloor 11 r 1 = .ok r :=
  ⟨by decide, C6_stall_permanent _ 1 11 rfl (by decide) (by decide) [2, 1, 3, 1] 4⟩

/-! ## Claim C7: the request history -/

theorem history_runRequests (n fuel : Nat) (hf : n + 2 ≤ fuel) :
    ∀ (reqs : List Int) (s : Elevator), RestInv n s →
      ∃ r, runRequests fuel s reqs = .ok r ∧
        viewStatusHistory r = viewStatusHistory s ++ acceptedRequests fuel s reqs := by
  intro reqs
  induction reqs with
  | nil => intro s _; exact ⟨s, rfl, by simp [acceptedRequests]⟩
  | cons a rest ih =>
    intro s hs
    obtain ⟨s1, e1⟩ := requestFloor_total n fuel s a hs hf
    obtain ⟨r, e2, hv⟩ := ih s1 (restInv_requestFloor n fuel s s1 a hs e1)
    refine ⟨r, by rw [runRequests, e1]; exact e2, ?_⟩
    rw [hv]
    simp only [acceptedRequests, e1]
    rcases requestFloor_cases fuel s s1 a hs.1 e1 with ⟨ha, rfl⟩ | ⟨ha, _, rfl⟩ | ⟨ha, _, rfl⟩
    · simp [ha]
    · simp [ha, viewStatusHistory_eq]
    · simp [ha, viewStatusHistory_eq]

/-- C7: after any sequence of `requestFloor` calls from the initial state
(each run with `numFloors + 2` units of fuel or more) the calls all return,
and the history that `viewStatus` prints, oldest first, is exactly the list of
the arguments of the accepted calls in call order; the history stack holds as
many entries as there were accepted calls. -/
theorem C7_history_is_accepted_requests (numFloors fuel : Nat) (reqs : List Int)
    (hf : numFloors + 2 ≤ fuel) :
    ∃ r, runRequests fuel (Elevator.init numFloors) reqs = .ok r ∧
      viewStatusHistory r = acceptedRequests fuel (Elevator.init numFloors) reqs ∧
      r.requestHistory.length = (acceptedRequests fuel (Elevator.init numFloors) reqs).length := by
  obtain ⟨r, e, hv⟩ := history_runRequests numFloors fuel hf reqs _ (restInv_init numFloors)
  have hv2 : viewStatusHistory r = acceptedRequests fuel (Elevator.init numFloors) reqs := by
    rw [hv]; simp [viewStatusHistory_eq, Elevator.init]
  refine ⟨r, e, hv2, ?_⟩
  rw [← hv2, viewStatusHistory_eq, List.length_reverse]

/-- Witness of C7: five floors and the calls `3, 3, 9`: the first two are
accepted, the third is out of range. -/
theorem C7_history_is_accepted_requests_witness :
    (∃ r, runRequests 7 (Elevator.init 5) [3, 3, 9] = .ok r ∧
      viewStatusHistory r = acceptedRequests 7 (Elevator.init 5) [3, 3, 9] ∧
      r.requestHistory.length = (acceptedRequests 7 (Elevator.init 5) [3, 3, 9]).length) ∧
    acceptedRequests 7 (Elevator.init 5) [3, 3, 9] = [3, 3] :=
  ⟨C7_history_is_accepted_requests 5 7 [3, 3, 9] (by decide), by decide⟩

/-! ## Claim C8: the current floor stays in the building -/

/-- The loop returns the last state of its trace. -/
theorem moveLoop_eq_trace_last : ∀ (fuel : Nat) (s r : Elevator) (nextFloor : Int),
    moveLoop fuel s nextFloor = .ok r →
      (s :: moveLoopTrace fuel s nextFloor).getLast? = some r := by
  intro fuel
  induction fuel with
  | zero => intro s r n h; simp [moveLoop] at h
  | succ k ih =>
    intro s r n h
    by_cases hc : s.currentFloor = n
    · rw [moveLoop_succ_eq _ _ _ hc] at h
      injection h with h
      subst h
      simp [moveLoopTrace, hc]
    · rw [moveLoop_succ_ne _ _ _ hc] at h
      have := ih _ _ _ h
      simp only [moveLoopTrace, ne_eq, hc, not_false_eq_true, if_true]
      rw [List.getLast?_cons_cons]
      exact this

theorem moveLoopTrace_bounds (lo hi nextFloor : Int) (h1 : lo ≤ nextFloor) (h2 : nextFloor ≤ hi) :
    ∀ (fuel : Nat) (s : Elevator), lo ≤ s.currentFloor → s.currentFloor ≤ hi →
      (s.direction = UP ∧ s.currentFloor ≤ nextFloor) ∨
        (s.direction = DOWN ∧ nextFloor ≤ s.currentFloor) →
      ∀ t ∈ moveLoopTrace fuel s nextFloor, lo ≤ t.currentFloor ∧ t.currentFloor ≤ hi := by
  intro fuel
  induction fuel with
  | zero => intro s _ _ _ t ht; simp [moveLoopTrace] at ht
  | succ k ih =>
    intro s c1 c2 hd t ht
    by_cases hc : s.currentFloor = nextFloor
    · simp [moveLoopTrace, hc] at ht
    · simp only [moveLoopTrace, ne_eq, hc, not_false_eq_true, if_true, List.mem_cons] at ht
      have b : lo ≤ (loopBody s).currentFloor ∧ (loopBody s).currentFloor ≤ hi ∧
          ((loopBody s).direction = UP ∧ (loopBody s).currentFloor ≤ nextFloor ∨
            (loopBody s).direction = DOWN ∧ nextFloor ≤ (loopBody s).currentFloor) := by
        simp only [loopBody]
        rcases hd with ⟨d, e⟩ | ⟨d, e⟩
        · simp only [d, UP]
          refine ⟨by omega, by omega, Or.inl ⟨trivial, by omega⟩⟩
        · simp only [d, DOWN]
          refine ⟨by omega, by omega, Or.inr ⟨trivial, by omega⟩⟩
      rcases ht with rfl | ht
      · exact ⟨b.1, b.2.1⟩
      · exact ih (loopBody s) b.1 b.2.1 b.2.2 t ht

/-- C8: for every `numFloors ≥ 1`, `1 ≤ currentFloor ≤ numFloors` holds in
the initial state and in every state reached by any sequence of
`requestFloor` calls with arbitrary integer arguments (every such sequence
does return a state); and it holds after every iteration of the movement
loop that an accepted request `f` starts from such a state. -/
theorem C8_currentFloor_in_range (numFloors : Nat) (hn : 1 ≤ numFloors) :
    (1 ≤ (Elevator.init numFloors).currentFloor ∧
      (Elevator.init numFloors).currentFloor ≤ (numFloors : Int)) ∧
    (∀ (fuel : Nat) (reqs : List Int), numFloors + 2 ≤ fuel →
      ∃ s, runRequests fuel (Elevator.init numFloors) reqs = .ok s) ∧
    (∀ s, Reachable numFloors s →
      1 ≤ s.currentFloor ∧ s.currentFloor ≤ (numFloors : Int)) ∧
    (∀ s, Reachable numFloors s → ∀ (f : Int), accepts s f = true → ∀ (fuel : Nat),
      ∀ t ∈ moveLoopTrace fuel
          { s with
            floorRequests := s.floorRequests.set f.toNat true
            requestQueue := []
            requestHistory := f :: s.requestHistory
            direction := if f > s.currentFloor then UP else DOWN } f,
        1 ≤ t.currentFloor ∧ t.currentFloor ≤ (numFloors : Int)) := by
  have hn1 : (1 : Int) ≤ numFloors := by omega
  have key : ∀ s, Reachable numFloors s →
      1 ≤ s.currentFloor ∧ s.currentFloor ≤ (numFloors : Int) := by
    intro s hs
    obtain ⟨_, _, c1, c2, _⟩ := restInv_of_reachable numFloors s hs
    rw [max_eq_left hn1] at c2
    exact ⟨c1, c2⟩
  refine ⟨⟨by simp [Elevator.init], by simpa [Elevator.init] using hn1⟩, ?_, key, ?_⟩
  · intro fuel reqs hf
    exact runRequests_total numFloors fuel hf reqs _ (restInv_init numFloors)
  · intro s hs f ha fuel t ht
    obtain ⟨c1, c2⟩ := key s hs
    obtain ⟨a1, a2, _⟩ := accepts_inRange s f ha
    have hl := (restInv_of_reachable numFloors s hs).2.1
    simp only [Elevator.numFloors, hl] at a2
    push_cast at a2
    refine moveLoopTrace_bounds 1 numFloors f a1 (by omega) fuel
      { s with
        floorRequests := s.floorRequests.set f.toNat true
        requestQueue := []
        requestHistory := f :: s.requestHistory
        direction := if f > s.currentFloor then UP else DOWN } c1 c2 ?_ t ht
    by_cases hlt : f > s.currentFloor
    · left; exact ⟨if_pos hlt, show s.currentFloor ≤ f by omega⟩
    · right; exact ⟨if_neg hlt, show f ≤ s.currentFloor by omega⟩

/-- Witness of C8: a building of five floors. -/
theorem C8_currentFloor_in_range_witness :
    (1 ≤ (Elevator.init 5).currentFloor ∧ (Elevator.init 5).currentFloor ≤ ((5 : Nat) : Int)) ∧
    (∀ (fuel : Nat) (reqs : List Int), 5 + 2 ≤ fuel →
      ∃ s, runRequests fuel (Elevator.init 5) reqs = .ok s) ∧
    (∀ s, Reachable 5 s → 1 ≤ s.currentFloor ∧ s.currentFloor ≤ ((5 : Nat) : Int)) ∧
    (∀ s, Reachable 5 s → ∀ (f : Int), accepts s f = true → ∀ (fuel : Nat),
      ∀ t ∈ moveLoopTrace fuel
          { s with
            floorRequests := s.floorRequests.set f.toNat true
            requestQueue := []
            requestHistory := f :: s.requestHistory
            direction := if f > s.currentFloor then UP else DOWN } f,
        1 ≤ t.currentFloor ∧ t.currentFloor ≤ ((5 : Nat) : Int)) :=
  C8_currentFloor_in_range 5 (by decide)

/-! ## Claim C9: flags and the queue -/

/-- C9 fails on the code: with three floors, `requestFloor(1)` in the
initial state returns a reachable state in which `requested[1]` is true while
`pendingRequests` is empty, so floor 1 is flagged without being enqueued. -/
theorem C9_flag_set_without_queue_entry :
    ∃ s, runRequests 2 (Elevator.init 3) [1] = .ok s ∧ Reachable 3 s ∧
      s.requested 1 = true ∧ s.requestQueue = [] ∧
      ¬ (s.requested 1 = true ↔ (1 : Int) ∈ s.requestQueue) :=
  ⟨{ currentFloor := 1, direction := IDLE, requestQueue := [], floorsVisited := [],
     floorRequests := [false, true, false, false], requestHistory := [1] },
    by decide, ⟨2, [1], by decide⟩, by decide, rfl, by decide⟩

/-! ## Claim C10: the same floor twice in a row -/

/-- C10: for every state at rest and in-range floor `f` with
`requested[f] = false` and `f ≠ currentFloor`, the calls `requestFloor(f);
requestFloor(f)` both return; the second is accepted (the history stack ends
with `f, f`, oldest-first history extended by `f, f`), it appends nothing to
`visitedLog`, and afterwards `currentFloor = f` and `requested[f] = true`. -/
theorem C10_same_floor_twice (s : Elevator) (f : Int) (fuel : Nat)
    (hq : s.requestQueue = []) (h1 : 1 ≤ f) (h2 : f ≤ s.numFloors)
    (hr : s.requested f = false) (hc : f ≠ s.currentFloor)
    (hf : (f - s.currentFloor).natAbs + 3 ≤ fuel) :
    ∃ r1 r2, requestFloor fuel s f = .ok r1 ∧ requestFloor fuel r1 f = .ok r2 ∧
      accepts r1 f = true ∧
      r2.requestHistory = f :: f :: s.requestHistory ∧
      viewStatusHistory r2 = viewStatusHistory s ++ [f, f] ∧
      r2.floorsVisited = r1.floorsVisited ∧
      r2.currentFloor = f ∧ r2.requested f = true := by
  have h3 : f < (s.floorRequests.length : Int) := by
    simp only [Elevator.numFloors] at h2; omega
  have e1 := requestFloor_travel fuel s f hq h1 h2 hr hc hf
  have hr1 : Elevator.requested
      { currentFloor := f
        direction := if f > s.currentFloor then UP else DOWN
        requestQueue := []
        floorsVisited := s.floorsVisited ++ floorsBetween s.currentFloor f
        floorRequests := s.floorRequests
        requestHistory := f :: s.requestHistory } f = false := by
    simpa only [Elevator.requested] using hr
  have e2 := requestFloor_stall fuel
    { currentFloor := f
      direction := if f > s.currentFloor then UP else DOWN
      requestQueue := []
      floorsVisited := s.floorsVisited ++ floorsBetween s.currentFloor f
      floorRequests := s.floorRequests
      requestHistory := f :: s.requestHistory } f rfl h1 h2 hr1 rfl (by omega)
  refine ⟨_, _, e1, e2, ?_, rfl, ?_, rfl, rfl, ?_⟩
  · simp only [accepts, hr1, Bool.not_false, Bool.and_true, decide_eq_true_eq]
    exact ⟨h1, h2⟩
  · simp [viewStatusHistory_eq]
  · exact requested_set_self s.floorRequests f (by omega) h3

/-- Witness of C10: with five floors, the requests 3 then 3 from the initial
state give `visitedLog = [2, 3]` and `requested[3] = true`. -/
theorem C10_same_floor_twice_witness :
    (∃ r1 r2, requestFloor 5 (Elevator.init 5) 3 = .ok r1 ∧ requestFloor 5 r1 3 = .ok r2 ∧
      accepts r1 3 = true ∧
      r2.requestHistory = 3 :: 3 :: (Elevator.init 5).requestHistory ∧
      viewStatusHistory r2 = viewStatusHistory (Elevator.init 5) ++ [3, 3] ∧
      r2.floorsVisited = r1.floorsVisited ∧
      r2.currentFloor = 3 ∧ r2.requested 3 = true) ∧
    runRequests 5 (Elevator.init 5) [3, 3] =
      .ok { currentFloor := 3, direction := UP, requestQueue := [], floorsVisited := [2, 3],
            floorRequests := [false, false, false, true, false, false],
            requestHistory := [3, 3] } :=
  ⟨C10_same_floor_twice (Elevator.init 5) 3 5 rfl (by decide) (by decide) (by decide)
    (by decide) (by decide), by decide⟩

/-! ## Frame properties of the loop and of the drain -/

theorem moveLoop_error : ∀ (fuel : Nat) (s : Elevator) (nextFloor : Int) (e : Fault),
    moveLoop fuel s nextFloor = .error e → e = Fault.outOfFuel := by
  intro fuel
  induction fuel with
  | zero => intro s n e h; simp only [moveLoop] at h; injection h with h; exact h.symm
  | succ k ih =>
    intro s n e h
    by_cases hc : s.currentFloor = n
    · rw [moveLoop_succ_eq _ _ _ hc] at h; cases h
    · rw [moveLoop_succ_ne _ _ _ hc] at h; exact ih _ _ _ h

theorem moveLoop_ok : ∀ (fuel : Nat) (s r : Elevator) (nextFloor : Int),
    moveLoop fuel s nextFloor = .ok r →
      r.currentFloor = nextFloor ∧ r.direction = s.direction ∧
      r.requestQueue = s.requestQueue ∧ r.floorRequests = s.floorRequests ∧
      r.requestHistory = s.requestHistory ∧ s.floorsVisited <+: r.floorsVisited := by
  intro fuel
  induction fuel with
  | zero => intro s r n h; simp [moveLoop] at h
  | succ k ih =>
    intro s r n h
    by_cases hc : s.currentFloor = n
    · rw [moveLoop_succ_eq _ _ _ hc] at h
      injection h with h
      subst h
      exact ⟨hc, rfl, rfl, rfl, rfl, List.prefix_refl _⟩
    · rw [moveLoop_succ_ne _ _ _ hc] at h
      obtain ⟨a, b, c, d, e, f⟩ := ih _ _ _ h
      exact ⟨a, b, c, d, e, (List.prefix_append _ _).trans f⟩

theorem frame_refl (s : Elevator) : Frame s s :=
  ⟨List.prefix_refl _, rfl, rfl, List.suffix_refl _⟩

theorem frame_trans (a b c : Elevator) (h1 : Frame a b) (h2 : Frame b c) : Frame a c :=
  ⟨h1.1.trans h2.1, h2.2.1.trans h1.2.1, h2.2.2.1.trans h1.2.2.1, h2.2.2.2.trans h1.2.2.2⟩

/-- The state reached after the loop and the flag write of `move`, seen
from the state in which `move` was called. -/
theorem frame_arrival {fuel : Nat} (s s2 : Elevator) (f d : Int) (rest : List Int) (v : List Bool)
    (hq : s.requestQueue = f :: rest)
    (hl : moveLoop fuel { s with requestQueue := rest, direction := d } f = .ok s2)
    (hw : writeFlag s2.floorRequests s2.currentFloor false = .ok v) :
    Frame s { s2 with floorRequests := v } := by
  obtain ⟨_, _, c, d, e, g⟩ := moveLoop_ok _ _ _ _ hl
  have hv : v.length = s2.floorRequests.length := by
    unfold writeFlag at hw
    split_ifs at hw
    injection hw with hw
    rw [← hw, List.length_set]
  refine ⟨g, e, by rw [hv, d], ?_⟩
  show s2.requestQueue <:+ s.requestQueue
  rw [c, hq]
  exact List.suffix_cons _ _

theorem move_processRequests_frame : ∀ (fuel : Nat),
    (∀ (s r : Elevator), move fuel s = .ok r → Frame s r) ∧
    (∀ (s r : Elevator), processRequests fuel s = .ok r → Frame s r) := by
  intro fuel
  induction fuel with
  | zero =>
    constructor
    · intro s r h; simp [move] at h
    · intro s r h; simp [processRequests] at h
  | succ k ih =>
    obtain ⟨ihm, ihp⟩ := ih
    constructor
    · intro s r h
      rw [move] at h
      cases hq : s.requestQueue with
      | nil =>
        simp only [hq] at h
        injection h with h
        subst h
        exact ⟨List.prefix_refl _, rfl, rfl, by simp [hq]⟩
      | cons f rest =>
        simp only [hq] at h
        split_ifs at h with c1 c2
        · cases hl : moveLoop k { s with requestQueue := rest, direction := UP } f with
          | error e => simp [hl] at h
          | ok s2 =>
            simp only [hl] at h
            cases hw : writeFlag s2.floorRequests s2.currentFloor false with
            | error e => simp [hw] at h
            | ok v =>
              simp only [hw] at h
              exact frame_trans _ _ _ (frame_arrival s s2 f UP rest v hq hl hw) (ihp _ _ h)
        · cases hl : moveLoop k { s with requestQueue := rest, direction := DOWN } f with
          | error e => simp [hl] at h
          | ok s2 =>
            simp only [hl] at h
            cases hw : writeFlag s2.floorRequests s2.currentFloor false with
            | error e => simp [hw] at h
            | ok v =>
              simp only [hw] at h
              exact frame_trans _ _ _ (frame_arrival s s2 f DOWN rest v hq hl hw) (ihp _ _ h)
        · injection h with h
          subst h
          exact ⟨List.prefix_refl _, rfl, rfl, by rw [hq]; exact List.suffix_cons _ _⟩
    · intro s r h
      by_cases hq : s.requestQueue = []
      · rw [processRequests_empty _ _ hq] at h
        injection h with h
        subst h
        exact frame_refl _
      · rw [processRequests_cons _ _ hq] at h
        cases hm : move k s with
        | error e => simp [hm] at h
        | ok s1 =>
          simp only [hm] at h
          exact frame_trans _ _ _ (ihm _ _ hm) (ihp _ _ h)

/-! ## The drain as a plain loop -/

/-- With enough fuel `processRequests` returns the service step folded over
the queue, and that state has an empty queue. -/
theorem processRequests_drain (n : Nat) : ∀ (q : List Int) (s : Elevator) (fuel : Nat),
    s.requestQueue = q → s.floorRequests.length = n + 1 →
    1 ≤ s.currentFloor → s.currentFloor ≤ (n : Int) →
    (∀ x ∈ q, 1 ≤ x ∧ x ≤ (n : Int)) → 2 * q.length + n + 1 ≤ fuel →
      processRequests fuel s = .ok (q.foldl serviceStep s) ∧
        (q.foldl serviceStep s).requestQueue = [] := by
  intro q
  induction q with
  | nil =>
    intro s fuel hq _ _ _ _ hf
    obtain ⟨k, rfl⟩ : ∃ k, fuel = k + 1 := ⟨fuel - 1, by omega⟩
    exact ⟨processRequests_empty k s hq, hq⟩
  | cons f rest ih =>
    intro s fuel hq hl c1 c2 hin hf
    simp only [List.length_cons] at hf
    obtain ⟨j, rfl⟩ : ∃ j, fuel = j + 1 + 1 := ⟨fuel - 2, by omega⟩
    have hf1 := (hin f (List.mem_cons_self _ _)).1
    have hf2 := (hin f (List.mem_cons_self _ _)).2
    have hrest : ∀ x ∈ rest, 1 ≤ x ∧ x ≤ (n : Int) :=
      fun x hx => hin x (List.mem_cons_of_mem _ hx)
    rw [processRequests_cons _ _ (by rw [hq]; simp), List.foldl_cons]
    by_cases hc : f = s.currentFloor
    · have hstep : serviceStep s f = { s with requestQueue := rest } := by
        simp only [serviceStep, if_pos hc, hq, List.tail_cons]
      rw [move_same j s f rest hq hc, hstep]
      exact ih { s with requestQueue := rest } (j + 1) rfl hl c1 c2 hrest (by omega)
    · have hstep : serviceStep s f =
          { currentFloor := f
            direction := if f > s.currentFloor then UP else DOWN
            requestQueue := rest
            floorsVisited := s.floorsVisited ++ floorsBetween s.currentFloor f
            floorRequests := s.floorRequests.set f.toNat false
            requestHistory := s.requestHistory } := by
        simp only [serviceStep, if_neg hc, hq, List.tail_cons]
      rw [move_travel j s f rest hq hc (by omega) (by rw [hl]; push_cast; omega) (by omega),
        ← hstep]
      have hq' : (serviceStep s f).requestQueue = rest := by rw [hstep]
      have hl' : (serviceStep s f).floorRequests.length = n + 1 := by
        rw [hstep]; simpa using hl
      have hc' : (serviceStep s f).currentFloor = f := by rw [hstep]
      obtain ⟨e, he⟩ := ih (serviceStep s f) j hq' hl' (by rw [hc']; exact hf1)
        (by rw [hc']; exact hf2) hrest (by omega)
      rw [e]
      exact ⟨processRequests_empty j _ he, he⟩

theorem wellFormed_nat (s : Elevator) (h : WellFormed s) :
    ∃ n : Nat, s.floorRequests.length = n + 1 ∧ s.numFloors = (n : Int) ∧
      1 ≤ s.currentFloor ∧ s.currentFloor ≤ (n : Int) ∧
      ∀ x ∈ s.requestQueue, 1 ≤ x ∧ x ≤ (n : Int) := by
  obtain ⟨⟨c1, c2⟩, hq⟩ := h
  simp only [Elevator.numFloors] at c2 hq
  refine ⟨s.floorRequests.length - 1, by omega, ?_, c1, by omega, ?_⟩
  · simp only [Elevator.numFloors]; omega
  · intro x hx
    have := hq x hx
    omega

/-- C12: for every state with `1 ≤ currentFloor ≤ numFloors` whose
`pendingRequests` holds only floors in `[1, numFloors]`, `processRequests()`
terminates (any fuel from `2 * |queue| + numFloors + 1` on gives a result)
and returns with `pendingRequests` empty. -/
theorem C12_processRequests_terminates (s : Elevator) (fuel : Nat) (hs : WellFormed s)
    (hf : 2 * s.requestQueue.length + s.floorRequests.length ≤ fuel) :
    ∃ r, processRequests fuel s = .ok r ∧ r.requestQueue = [] := by
  obtain ⟨n, hl, _, c1, c2, hq⟩ := wellFormed_nat s hs
  obtain ⟨e, he⟩ := processRequests_drain n s.requestQueue s fuel rfl hl c1 c2 hq (by omega)
  exact ⟨_, e, he⟩

/-- Witness of C12: three floors, elevator on floor 2, queue `3, 3, 1`. -/
theorem C12_processRequests_terminates_witness :
    ∃ r, processRequests 10
        { currentFloor := 2, direction := IDLE, requestQueue := [3, 3, 1], floorsVisited := [],
          floorRequests := [false, false, false, false], requestHistory := [] } = .ok r ∧
      r.requestQueue = [] :=
  C12_processRequests_terminates _ 10
    ⟨⟨by decide, by decide⟩, by decide⟩ (by decide)

/-- C13: for every state whose `pendingRequests` is empty, `move()` returns
the same state with `direction` set to `IDLE`: `currentFloor`, the queue, the
flags, `visitedLog` and `requestHistory` are unchanged. -/
theorem C13_move_empty_queue (s : Elevator) (fuel : Nat) (hq : s.requestQueue = [])
    (hf : 1 ≤ fuel) :
    ∃ r, move fuel s = .ok r ∧ r.direction = IDLE ∧ r.currentFloor = s.currentFloor ∧
      r.requestQueue = s.requestQueue ∧ r.floorRequests = s.floorRequests ∧
      r.floorsVisited = s.floorsVisited ∧ r.requestHistory = s.requestHistory := by
  obtain ⟨k, rfl⟩ : ∃ k, fuel = k + 1 := ⟨fuel - 1, by omega⟩
  exact ⟨_, move_nil k s hq, rfl, rfl, rfl, rfl, rfl, rfl⟩

/-- Witness of C13: `move()` on floor 3 with direction `UP` and no pending
request. -/
theorem C13_move_empty_queue_witness :
    (∃ r, move 1
        { currentFloor := 3, direction := UP, requestQueue := [], floorsVisited := [2, 3],
          floorRequests := [false, false, false, false], requestHistory := [3] } = .ok r ∧
      r.direction = IDLE ∧ r.currentFloor = 3 ∧ r.requestQueue = [] ∧
      r.floorRequests = [false, false, false, false] ∧
      r.floorsVisited = [2, 3] ∧ r.requestHistory = [3]) :=
  C13_move_empty_queue
    { currentFloor := 3, direction := UP, requestQueue := [], floorsVisited := [2, 3],
      floorRequests := [false, false, false, false], requestHistory := [3] } 1 rfl (by decide)

/-- C15: for every state with in-range `currentFloor` and a queue of
in-range floors, `processRequests()` (whose `move()` recurses into
`processRequests()` after each arrival) returns exactly the state obtained by
folding the single-request service step over the queue from front to back. -/
theorem C15_recursive_drain_is_fifo_loop (s : Elevator) (fuel : Nat) (hs : WellFormed s)
    (hf : 2 * s.requestQueue.length + s.floorRequests.length ≤ fuel) :
    processRequests fuel s = .ok (drainLoop s) := by
  obtain ⟨n, hl, _, c1, c2, hq⟩ := wellFormed_nat s hs
  exact (processRequests_drain n s.requestQueue s fuel rfl hl c1 c2 hq (by omega)).1

/-- Witness of C15: three floors, elevator on floor 2, queue `3, 3, 1`; the
plain loop ends on floor 1 with `visitedLog = [3, 2, 1]`. -/
theorem C15_recursive_drain_is_fifo_loop_witness :
    processRequests 10
        { currentFloor := 2, direction := IDLE, requestQueue := [3, 3, 1], floorsVisited := [],
          floorRequests := [false, false, false, true], requestHistory := [] } =
      .ok (drainLoop
        { currentFloor := 2, direction := IDLE, requestQueue := [3, 3, 1], floorsVisited := [],
          floorRequests := [false, false, false, true], requestHistory := [] }) ∧
    drainLoop
        { currentFloor := 2, direction := IDLE, requestQueue := [3, 3, 1], floorsVisited := [],
          floorRequests := [false, false, false, true], requestHistory := [] } =
      { currentFloor := 1, direction := DOWN, requestQueue := [], floorsVisited := [3, 2, 1],
        floorRequests := [false, false, false, false], requestHistory := [] } :=
  ⟨C15_recursive_drain_is_fifo_loop _ 10 ⟨⟨by decide, by decide⟩, by decide⟩ (by decide),
    by decide⟩

/-! ## Claim C11: the two logs only grow -/

/-- A call of `requestFloor` that returns either rejected the request or
recorded it and drained the queue. -/
theorem requestFloor_ok_cases (fuel : Nat) (s r : Elevator) (f : Int)
    (h : requestFloor fuel s f = .ok r) :
    r = s ∨
    (accepts s f = true ∧
      processRequests fuel
        { s with
          floorRequests := s.floorRequests.set f.toNat true
          requestQueue := s.requestQueue ++ [f]
          requestHistory := f :: s.requestHistory } = .ok r) := by
  by_cases hin : 1 ≤ f ∧ f ≤ s.numFloors
  · cases hr : s.requested f with
    | true =>
      left
      rw [requestFloor_duplicate fuel s f hin.1 hin.2 hr] at h
      injection h with h
      exact h.symm
    | false =>
      right
      rw [requestFloor_accept fuel s f hin.1 hin.2 hr] at h
      exact ⟨by simp [accepts, hr, hin], h⟩
  · left
    rw [requestFloor_invalid fuel s f (by omega)] at h
    injection h with h
    exact h.symm

theorem history_prefix_of_eq (s r : Elevator) (h : r.requestHistory = s.requestHistory) :
    viewStatusHistory s <+: viewStatusHistory r := by
  rw [viewStatusHistory_eq, viewStatusHistory_eq, h]

theorem requestFloor_logs (fuel : Nat) (s r : Elevator) (f : Int)
    (h : requestFloor fuel s f = .ok r) :
    s.floorsVisited <+: r.floorsVisited ∧ viewStatusHistory s <+: viewStatusHistory r := by
  rcases requestFloor_ok_cases fuel s r f h with rfl | ⟨_, hp⟩
  · exact ⟨List.prefix_refl _, List.prefix_refl _⟩
  · obtain ⟨a, b, _, _⟩ := (move_processRequests_frame fuel).2 _ _ hp
    refine ⟨a, ?_⟩
    rw [viewStatusHistory_eq, viewStatusHistory_eq, b]
    simp only [List.reverse_cons]
    exact List.prefix_append _ _

theorem requestFloor_returns (s : Elevator) (f : Int) (fuel : Nat) (hs : WellFormed s)
    (hf : 2 * s.requestQueue.length + s.floorRequests.length + 2 ≤ fuel) :
    ∃ r, requestFloor fuel s f = .ok r := by
  by_cases hin : 1 ≤ f ∧ f ≤ s.numFloors
  · cases hr : s.requested f with
    | true => exact ⟨s, requestFloor_duplicate fuel s f hin.1 hin.2 hr⟩
    | false =>
      obtain ⟨n, hl, hn, c1, c2, hq⟩ := wellFormed_nat s hs
      rw [requestFloor_accept fuel s f hin.1 hin.2 hr]
      refine ⟨_, (processRequests_drain n (s.requestQueue ++ [f])
        { s with
          floorRequests := s.floorRequests.set f.toNat true
          requestQueue := s.requestQueue ++ [f]
          requestHistory := f :: s.requestHistory } fuel rfl
        (by simpa using hl) c1 c2 ?_
        (by simp only [List.length_append, List.length_singleton]; omega)).1⟩
      intro x hx
      simp only [List.mem_append, List.mem_singleton] at hx
      rcases hx with hx | rfl
      · exact hq x hx
      · exact ⟨hin.1, by rw [← hn]; exact hin.2⟩
  · exact ⟨s, requestFloor_invalid fuel s f (by omega)⟩

theorem move_returns (s : Elevator) (fuel : Nat) (hs : WellFormed s)
    (hf : 2 * s.requestQueue.length + s.floorRequests.length + 2 ≤ fuel) :
    ∃ r, move fuel s = .ok r := by
  obtain ⟨n, hl, hn, c1, c2, hq⟩ := wellFormed_nat s hs
  obtain ⟨k, rfl⟩ : ∃ k, fuel = k + 1 := ⟨fuel - 1, by omega⟩
  cases hqq : s.requestQueue with
  | nil => exact ⟨_, move_nil k s hqq⟩
  | cons f rest =>
    rw [hqq] at hq hf
    simp only [List.length_cons] at hf
    have hf1 := (hq f (List.mem_cons_self _ _)).1
    have hf2 := (hq f (List.mem_cons_self _ _)).2
    by_cases hc : f = s.currentFloor
    · exact ⟨_, move_same k s f rest hqq hc⟩
    · rw [move_travel k s f rest hqq hc (by omega) (by rw [hl]; push_cast; omega) (by omega)]
      exact ⟨_, (processRequests_drain n rest _ k rfl (by simpa using hl) hf1 hf2
        (fun x hx => hq x (List.mem_cons_of_mem _ hx)) (by omega)).1⟩

/-- C11: every operation of the elevator is append-only on the two logs.
Whenever `requestFloor`, `move` or `processRequests` returns, from any state
and with any argument, the `visitedLog` before the call is a prefix of the one
after it and the oldest-first request history before the call is a prefix of
the one after it; `idleTime`, `viewStatus` and `printFloorsVisited` leave both
logs as they are; and from every state with in-range current floor and
pending floors the first three do return, given enough fuel. -/
theorem C11_logs_append_only :
    (∀ (fuel : Nat) (s r : Elevator) (floor : Int), requestFloor fuel s floor = .ok r →
      s.floorsVisited <+: r.floorsVisited ∧ viewStatusHistory s <+: viewStatusHistory r) ∧
    (∀ (fuel : Nat) (s r : Elevator), move fuel s = .ok r →
      s.floorsVisited <+: r.floorsVisited ∧ viewStatusHistory s <+: viewStatusHistory r) ∧
    (∀ (fuel : Nat) (s r : Elevator), processRequests fuel s = .ok r →
      s.floorsVisited <+: r.floorsVisited ∧ viewStatusHistory s <+: viewStatusHistory r) ∧
    (∀ (s : Elevator) (seconds : Int),
      s.floorsVisited <+: (idleTime s seconds).floorsVisited ∧
        viewStatusHistory s <+: viewStatusHistory (idleTime s seconds)) ∧
    (∀ (s : Elevator),
      s.floorsVisited <+: (viewStatus s).2.floorsVisited ∧
        viewStatusHistory s <+: viewStatusHistory (viewStatus s).2) ∧
    (∀ (s : Elevator),
      s.floorsVisited <+: (printFloorsVisited s).2.floorsVisited ∧
        viewStatusHistory s <+: viewStatusHistory (printFloorsVisited s).2) ∧
    (∀ (s : Elevator) (fuel : Nat), WellFormed s →
      2 * s.requestQueue.length + s.floorRequests.length + 2 ≤ fuel →
      (∀ floor : Int, ∃ r, requestFloor fuel s floor = .ok r) ∧
        (∃ r, move fuel s = .ok r) ∧ (∃ r, processRequests fuel s = .ok r)) := by
  refine ⟨requestFloor_logs, ?_, ?_, ?_, ?_, ?_, ?_⟩
  · intro fuel s r h
    obtain ⟨a, b, _, _⟩ := (move_processRequests_frame fuel).1 s r h
    exact ⟨a, history_prefix_of_eq s r b⟩
  · intro fuel s r h
    obtain ⟨a, b, _, _⟩ := (move_processRequests_frame fuel).2 s r h
    exact ⟨a, history_prefix_of_eq s r b⟩
  · intro s seconds
    exact ⟨List.prefix_refl _, List.prefix_refl _⟩
  · intro s
    exact ⟨List.prefix_refl _, List.prefix_refl _⟩
  · intro s
    exact ⟨List.prefix_refl _, List.prefix_refl _⟩
  · intro s fuel hs hf
    refine ⟨fun floor => requestFloor_returns s floor fuel hs hf, move_returns s fuel hs hf, ?_⟩
    obtain ⟨n, hl, _, c1, c2, hq⟩ := wellFormed_nat s hs
    exact ⟨_, (processRequests_drain n s.requestQueue s fuel rfl hl c1 c2 hq (by omega)).1⟩

/-- Witness of C11: requesting floor 3 of five in the initial state extends
the empty logs to `[2, 3]` and `[3]`. -/
theorem C11_logs_append_only_witness :
    ((Elevator.init 5).floorsVisited <+: [2, 3] ∧
      viewStatusHistory (Elevator.init 5) <+:
        viewStatusHistory
          { currentFloor := 3, direction := UP, requestQueue := [], floorsVisited := [2, 3],
            floorRequests := [false, false, false, false, false, false],
            requestHistory := [3] }) ∧
    ∃ r, processRequests 10 (Elevator.init 5) = .ok r :=
  ⟨C11_logs_append_only.1 5 (Elevator.init 5)
      { currentFloor := 3, direction := UP, requestQueue := [], floorsVisited := [2, 3],
        floorRequests := [false, false, false, false, false, false],
        requestHistory := [3] } 3 (by decide),
    (C11_logs_append_only.2.2.2.2.2.2 (Elevator.init 5) 10
      ⟨⟨by decide, by decide⟩, by decide⟩ (by decide)).2.2⟩

/-! ## Claim C14: the status grid -/

theorem statusLoop_eq (cur : Int) : ∀ n : Nat,
    statusLoop cur n =
      (List.range n).reverse.map
        (fun (i : Nat) => StatusLine.floor ((i + 1 : Nat) : Int) (decide (((i + 1 : Nat) : Int) = cur))) := by
  intro n
  induction n with
  | zero => rfl
  | succ k ih =>
    rw [statusLoop, ih, List.range_succ, List.reverse_append]
    rfl

theorem statusLoop_marked (cur : Int) : ∀ n : Nat,
    (statusLoop cur n).filter StatusLine.marked =
      if 1 ≤ cur ∧ cur ≤ (n : Int) then [StatusLine.floor cur true] else [] := by
  intro n
  induction n with
  | zero =>
    have : ¬ (1 ≤ cur ∧ cur ≤ ((0 : Nat) : Int)) := by omega
    rw [if_neg this]
    rfl
  | succ k ih =>
    rw [statusLoop]
    by_cases hc : ((k + 1 : Nat) : Int) = cur
    · have h1 : 1 ≤ cur ∧ cur ≤ ((k + 1 : Nat) : Int) := by omega
      have h2 : ¬ (1 ≤ cur ∧ cur ≤ (k : Int)) := by omega
      rw [List.filter_cons, ih, if_neg h2, if_pos h1]
      simp [hc, StatusLine.marked]
    · have h3 : (1 ≤ cur ∧ cur ≤ ((k + 1 : Nat) : Int)) ↔ (1 ≤ cur ∧ cur ≤ (k : Int)) := by
        push_cast at hc ⊢
        omega
      rw [List.filter_cons, ih]
      simp only [hc, decide_False, StatusLine.marked, h3]
      simp

/-- C14: in a building of `numFloors ≥ 1` floors, for every state with
`1 ≤ currentFloor ≤ numFloors`, `printElevatorStatus` writes the heading, then
one floor line for each of `numFloors, numFloors - 1, ..., 1` in that order
(none for floor 0), then an empty line; the only line carrying the elevator
marker is the line of `currentFloor`; and the state is returned unchanged. -/
theorem C14_status_grid (s : Elevator) (numFloors : Nat) (_hn : 1 ≤ numFloors)
    (hl : s.floorRequests.length = numFloors + 1)
    (c1 : 1 ≤ s.currentFloor) (c2 : s.currentFloor ≤ (numFloors : Int)) :
    (printElevatorStatus s).1 =
      StatusLine.header ::
        (List.range numFloors).reverse.map
          (fun (i : Nat) =>
            StatusLine.floor ((i + 1 : Nat) : Int) (decide (((i + 1 : Nat) : Int) = s.currentFloor))) ++
        [StatusLine.blank] ∧
    (printElevatorStatus s).1.filter StatusLine.marked = [StatusLine.floor s.currentFloor true] ∧
    (printElevatorStatus s).2 = s := by
  have hn : s.floorRequests.length - 1 = numFloors := by omega
  refine ⟨?_, ?_, rfl⟩
  · simp only [printElevatorStatus, hn, statusLoop_eq]
  · simp only [printElevatorStatus, hn, List.filter_cons, List.filter_append, statusLoop_marked,
      if_pos (And.intro c1 c2)]
    simp [StatusLine.marked]

/-- Witness of C14: three floors, elevator on floor 2. -/
theorem C14_status_grid_witness :
    (printElevatorStatus
        { currentFloor := 2, direction := UP, requestQueue := [], floorsVisited := [2],
          floorRequests := [false, false, false, false], requestHistory := [2] }).1 =
      [StatusLine.header, StatusLine.floor 3 false, StatusLine.floor 2 true,
        StatusLine.floor 1 false, StatusLine.blank] ∧
    ((printElevatorStatus
        { currentFloor := 2, direction := UP, requestQueue := [], floorsVisited := [2],
          floorRequests := [false, false, false, false], requestHistory := [2] }).1 =
      StatusLine.header ::
        (List.range 3).reverse.map
          (fun (i : Nat) =>
            StatusLine.floor ((i + 1 : Nat) : Int) (decide (((i + 1 : Nat) : Int) = 2))) ++
        [StatusLine.blank] ∧
    (printElevatorStatus
        { currentFloor := 2, direction := UP, requestQueue := [], floorsVisited := [2],
          floorRequests := [false, false, false, false], requestHistory := [2] }).1.filter
        StatusLine.marked = [StatusLine.floor 2 true] ∧
    (printElevatorStatus
        { currentFloor := 2, direction := UP, requestQueue := [], floorsVisited := [2],
          floorRequests := [false, false, false, false], requestHistory := [2] }).2 =
      { currentFloor := 2, direction := UP, requestQueue := [], floorsVisited := [2],
        floorRequests := [false, false, false, false], requestHistory := [2] }) :=
  ⟨by decide,
    C14_status_grid
      { currentFloor := 2, direction := UP, requestQueue := [], floorsVisited := [2],
        floorRequests := [false, false, false, false], requestHistory := [2] } 3 (by decide) rfl
      (by decide) (by decide)⟩

/-! ## Invariants of the reachable states -/

/-- Induction over the calls that lead to a reachable state. -/
theorem reachable_induction (n : Nat) (P : Elevator → Prop) (h0 : P (Elevator.init n))
    (hstep : ∀ (fuel : Nat) (s r : Elevator) (f : Int),
      RestInv n s → P s → requestFloor fuel s f = .ok r → P r) :
    ∀ s, Reachable n s → P s := by
  have key : ∀ (fuel : Nat) (reqs : List Int) (s r : Elevator),
      RestInv n s → P s → runRequests fuel s reqs = .ok r → P r := by
    intro fuel reqs
    induction reqs with
    | nil =>
      intro s r _ hp h
      simp only [runRequests] at h
      injection h with h
      exact h ▸ hp
    | cons a rest ih =>
      intro s r hs hp h
      rw [runRequests] at h
      cases hq : requestFloor fuel s a with
      | error e => simp [hq] at h
      | ok s1 =>
        simp only [hq] at h
        exact ih s1 r (restInv_requestFloor n fuel s s1 a hs hq) (hstep fuel s s1 a hs hp hq) h
  intro s ⟨fuel, reqs, h⟩
  exact key fuel reqs _ s (restInv_init n) h0 h

theorem floorsBetween_ne_nil (a b : Int) (h : b ≠ a) : floorsBetween a b ≠ [] := by
  intro e
  have := floorsBetween_length a b
  rw [e] at this
  simp only [List.length_nil] at this
  omega

theorem range_map_chain (g : Nat → Int) (h : ∀ i, adjacentFloors (g i) (g (i + 1))) :
    ∀ k : Nat, List.Chain' adjacentFloors ((List.range k).map g) := by
  intro k
  rw [List.chain'_map]
  cases k with
  | zero => simp
  | succ j =>
    rw [List.chain'_range_succ]
    intro m _
    exact h m

theorem range_map_head (g : Nat → Int) (k : Nat) :
    ((List.range (k + 1)).map g).head? = some (g 0) := by
  rw [List.range_succ_eq_map]
  rfl

theorem range_map_last (g : Nat → Int) (k : Nat) :
    ((List.range (k + 1)).map g).getLast? = some (g k) := by
  rw [List.range_succ, List.map_append]
  simp

theorem floorsBetween_chain (a b : Int) : List.Chain' adjacentFloors (floorsBetween a b) := by
  unfold floorsBetween
  split_ifs
  · exact range_map_chain _ (fun i => by simp only [adjacentFloors]; push_cast; omega) _
  · exact range_map_chain _ (fun i => by simp only [adjacentFloors]; push_cast; omega) _

theorem floorsBetween_head (a b : Int) (h : b ≠ a) :
    ∃ y, (floorsBetween a b).head? = some y ∧ adjacentFloors a y := by
  unfold floorsBetween
  split_ifs with hlt
  · obtain ⟨k, hk⟩ : ∃ k, (b - a).toNat = k + 1 := ⟨(b - a).toNat - 1, by omega⟩
    rw [hk, range_map_head]
    exact ⟨_, rfl, by simp only [adjacentFloors]; push_cast; omega⟩
  · obtain ⟨k, hk⟩ : ∃ k, (a - b).toNat = k + 1 := ⟨(a - b).toNat - 1, by omega⟩
    rw [hk, range_map_head]
    exact ⟨_, rfl, by simp only [adjacentFloors]; push_cast; omega⟩

theorem floorsBetween_last (a b : Int) (h : b ≠ a) : (floorsBetween a b).getLast? = some b := by
  unfold floorsBetween
  split_ifs with hlt
  · obtain ⟨k, hk⟩ : ∃ k, (b - a).toNat = k + 1 := ⟨(b - a).toNat - 1, by omega⟩
    rw [hk, range_map_last]
    congr 1
    omega
  · obtain ⟨k, hk⟩ : ∃ k, (a - b).toNat = k + 1 := ⟨(a - b).toNat - 1, by omega⟩
    rw [hk, range_map_last]
    congr 1
    omega

/-- The visited log, with the start floor 1 put in front, is one walk that
ends on the current floor. -/
theorem path_of_reachable (n : Nat) : ∀ s, Reachable n s →
    List.Chain' adjacentFloors (1 :: s.floorsVisited) ∧
      (1 :: s.floorsVisited).getLast? = some s.currentFloor := by
  apply reachable_induction n
  · exact ⟨by simp [Elevator.init], by simp [Elevator.init]⟩
  · intro fuel s r f hs hp h
    rcases requestFloor_cases fuel s r f hs.1 h with ⟨_, rfl⟩ | ⟨_, _, rfl⟩ | ⟨_, hc, rfl⟩
    · exact hp
    · exact hp
    · obtain ⟨y, hy, hadj⟩ := floorsBetween_head s.currentFloor f hc
      constructor
      · show List.Chain' adjacentFloors (1 :: (s.floorsVisited ++ floorsBetween s.currentFloor f))
        rw [← List.cons_append]
        refine List.Chain'.append hp.1 (floorsBetween_chain _ _) ?_
        intro x hx z hz
        rw [hp.2] at hx
        rw [hy] at hz
        cases hx
        cases hz
        exact hadj
      · show (1 :: (s.floorsVisited ++ floorsBetween s.currentFloor f)).getLast? = some f
        rw [← List.cons_append, List.getLast?_append, floorsBetween_last _ _ hc]
        rfl

/-! ## Claims C16, C17 and C20: direction and visited log -/

theorem direction_of_reachable (n : Nat) : ∀ s, Reachable n s →
    (s.direction = IDLE ∨ s.direction = UP ∨ s.direction = DOWN) ∧
      (s.direction = IDLE ↔ s.floorsVisited = []) := by
  apply reachable_induction n
  · exact ⟨Or.inl rfl, by simp [Elevator.init]⟩
  · intro fuel s r f hs hp h
    rcases requestFloor_cases fuel s r f hs.1 h with ⟨_, rfl⟩ | ⟨_, _, rfl⟩ | ⟨_, hc, rfl⟩
    · exact hp
    · exact hp
    · have hne := floorsBetween_ne_nil s.currentFloor f hc
      by_cases hlt : f > s.currentFloor
      · have hd : (if f > s.currentFloor then UP else DOWN) = UP := if_pos hlt
        refine ⟨Or.inr (Or.inl hd), ?_⟩
        constructor
        · intro h0; exact absurd (hd.symm.trans h0) (by decide)
        · intro h0; exact absurd (List.append_eq_nil.mp h0).2 hne
      · have hd : (if f > s.currentFloor then UP else DOWN) = DOWN := if_neg hlt
        refine ⟨Or.inr (Or.inr hd), ?_⟩
        constructor
        · intro h0; exact absurd (hd.symm.trans h0) (by decide)
        · intro h0; exact absurd (List.append_eq_nil.mp h0).2 hne

/-- C16: the three direction tags are `IDLE = 0`, `UP = 1`, `DOWN = -1`; in
every state reachable from `Elevator(numFloors)` by `requestFloor` calls
`direction` is one of them; and every accepted `requestFloor(B)` issued at
rest on floor `A` returns with `direction = UP` if `B > A`, `direction = DOWN`
if `B < A`, and `direction` unchanged if `B = A`. -/
theorem C16_direction_values :
    (IDLE = 0 ∧ UP = 1 ∧ DOWN = -1) ∧
    (∀ (numFloors : Nat) (s : Elevator), Reachable numFloors s →
      s.direction = IDLE ∨ s.direction = UP ∨ s.direction = DOWN) ∧
    (∀ (s : Elevator) (B : Int) (fuel : Nat), s.requestQueue = [] → accepts s B = true →
      (B - s.currentFloor).natAbs + 3 ≤ fuel →
      ∃ r, requestFloor fuel s B = .ok r ∧
        (B > s.currentFloor → r.direction = UP) ∧
        (B < s.currentFloor → r.direction = DOWN) ∧
        (B = s.currentFloor → r.direction = s.direction)) := by
  refine ⟨⟨rfl, rfl, rfl⟩, fun n s hs => (direction_of_reachable n s hs).1, ?_⟩
  intro s B fuel hq ha hf
  obtain ⟨h1, h2, hr⟩ := accepts_inRange s B ha
  by_cases hc : B = s.currentFloor
  · refine ⟨_, requestFloor_stall fuel s B hq h1 h2 hr hc (by omega), ?_, ?_, fun _ => rfl⟩
    · intro h; omega
    · intro h; omega
  · refine ⟨_, requestFloor_travel fuel s B hq h1 h2 hr hc hf, ?_, ?_, fun h => absurd h hc⟩
    · intro h; exact if_pos h
    · intro h; exact if_neg (by omega)

/-- Witness of C16: in a five-floor building, floor 3 requested at rest on
floor 1 leaves `direction = UP`. -/
theorem C16_direction_values_witness :
    ∃ r, requestFloor 5 (Elevator.init 5) 3 = .ok r ∧
      ((3 : Int) > (Elevator.init 5).currentFloor → r.direction = UP) ∧
      ((3 : Int) < (Elevator.init 5).currentFloor → r.direction = DOWN) ∧
      ((3 : Int) = (Elevator.init 5).currentFloor → r.direction = (Elevator.init 5).direction) :=
  C16_direction_values.2.2 (Elevator.init 5) 3 5 rfl (by decide) (by decide)

/-- C17: in every state reachable from `Elevator(numFloors)` by
`requestFloor` calls, `visitedLog` is one contiguous walk starting from floor
1: if it is empty then `currentFloor = 1`; otherwise its first entry is 2,
every two adjacent entries are one floor apart, and its last entry is
`currentFloor`. -/
theorem C17_visitedLog_contiguous (numFloors : Nat) (s : Elevator)
    (hs : Reachable numFloors s) :
    (s.floorsVisited = [] → s.currentFloor = 1) ∧
    (s.floorsVisited ≠ [] →
      s.floorsVisited.head? = some 2 ∧ List.Chain' adjacentFloors s.floorsVisited ∧
        s.floorsVisited.getLast? = some s.currentFloor) := by
  obtain ⟨hch, hlast⟩ := path_of_reachable numFloors s hs
  obtain ⟨_, _, _, _, hv⟩ := restInv_of_reachable numFloors s hs
  constructor
  · intro he
    rw [he] at hlast
    simp only [List.getLast?_singleton, Option.some.injEq] at hlast
    exact hlast.symm
  · intro hne
    cases hl : s.floorsVisited with
    | nil => exact absurd hl hne
    | cons a t =>
      rw [hl] at hch hlast hv
      have ha := (hv a (List.mem_cons_self _ _)).1
      rw [List.chain'_cons] at hch
      rw [List.getLast?_cons_cons] at hlast
      refine ⟨?_, hch.2, hlast⟩
      have hadj := hch.1
      simp only [adjacentFloors] at hadj
      simp only [List.head?_cons, Option.some.injEq]
      omega

/-- Witness of C17: five floors, after the requests 3 then 2 the log is
`[2, 3, 2]`. -/
theorem C17_visitedLog_contiguous_witness :
    (([2, 3, 2] : List Int) = [] → (2 : Int) = 1) ∧
    (([2, 3, 2] : List Int) ≠ [] →
      ([2, 3, 2] : List Int).head? = some 2 ∧ List.Chain' adjacentFloors ([2, 3, 2] : List Int) ∧
        ([2, 3, 2] : List Int).getLast? = some 2) :=
  C17_visitedLog_contiguous 5
    { currentFloor := 2, direction := DOWN, requestQueue := [], floorsVisited := [2, 3, 2],
      floorRequests := [false, false, false, false, false, false], requestHistory := [2, 3] }
    ⟨5, [3, 2], by decide⟩

/-- C20: in every state reachable from `Elevator(numFloors)` by
`requestFloor` calls, `direction = IDLE` if and only if `visitedLog` is empty:
once the elevator has moved, `direction` is `UP` or `DOWN` whenever
`requestFloor` returns. -/
theorem C20_idle_iff_never_moved (numFloors : Nat) (s : Elevator)
    (hs : Reachable numFloors s) :
    (s.direction = IDLE ↔ s.floorsVisited = []) ∧
    (s.floorsVisited ≠ [] → s.direction = UP ∨ s.direction = DOWN) := by
  obtain ⟨h3, hiff⟩ := direction_of_reachable numFloors s hs
  refine ⟨hiff, fun hne => ?_⟩
  rcases h3 with h | h | h
  · exact absurd (hiff.mp h) hne
  · exact Or.inl h
  · exact Or.inr h

/-- Witness of C20: five floors, after the requests 3 then 3 the elevator
has moved and its direction is still `UP`. -/
theorem C20_idle_iff_never_moved_witness :
    ((UP = IDLE ↔ ([2, 3] : List Int) = []) ∧
      (([2, 3] : List Int) ≠ [] → UP = UP ∨ UP = DOWN)) :=
  C20_idle_iff_never_moved 5
    { currentFloor := 3, direction := UP, requestQueue := [], floorsVisited := [2, 3],
      floorRequests := [false, false, false, true, false, false], requestHistory := [3, 3] }
    ⟨5, [3, 3], by decide⟩

/-! ## Claim C18: every index is in bounds -/

theorem queueInBounds_of_frame (s r : Elevator) (h : Frame s r) (hs : QueueInBounds s) :
    QueueInBounds r := by
  intro x hx
  have := hs x (h.2.2.2.subset hx)
  rw [h.2.2.1]
  exact this

/-- On a queue of valid indices, the only way `move` and `processRequests`
stop without a result is by running out of fuel. -/
theorem move_processRequests_inBounds : ∀ (fuel : Nat),
    (∀ (s : Elevator) (e : Fault), QueueInBounds s → move fuel s = .error e →
      e = Fault.outOfFuel) ∧
    (∀ (s : Elevator) (e : Fault), QueueInBounds s → processRequests fuel s = .error e →
      e = Fault.outOfFuel) := by
  intro fuel
  induction fuel with
  | zero =>
    constructor
    · intro s e _ h; simp only [move] at h; injection h with h; exact h.symm
    · intro s e _ h; simp only [processRequests] at h; injection h with h; exact h.symm
  | succ k ih =>
    obtain ⟨ihm, ihp⟩ := ih
    have arrive : ∀ (s : Elevator) (e : Fault) (f d : Int) (rest : List Int),
        QueueInBounds s → s.requestQueue = f :: rest →
        (match moveLoop k { s with requestQueue := rest, direction := d } f with
          | .error e => .error e
          | .ok s2 =>
            match writeFlag s2.floorRequests s2.currentFloor false with
            | .error e => .error e
            | .ok v => processRequests k { s2 with floorRequests := v } :
              Except Fault Elevator) = .error e →
        e = Fault.outOfFuel := by
      intro s e f d rest hs hq h
      cases hl : moveLoop k { s with requestQueue := rest, direction := d } f with
      | error e2 =>
        simp only [hl] at h
        injection h with h
        exact h ▸ moveLoop_error _ _ _ _ hl
      | ok s2 =>
        simp only [hl] at h
        obtain ⟨a, _, c, d2, _, _⟩ := moveLoop_ok _ _ _ _ hl
        have c : s2.requestQueue = rest := c
        have d2 : s2.floorRequests = s.floorRequests := d2
        have hf := hs f (by rw [hq]; exact List.mem_cons_self _ _)
        have hw := writeFlag_inRange s2.floorRequests s2.currentFloor false
          (by rw [a]; exact hf.1) (by rw [a, d2]; exact hf.2)
        simp only [hw] at h
        refine ihp _ e ?_ h
        intro x hx
        have hx2 : x ∈ rest := by rw [← c]; exact hx
        have := hs x (by rw [hq]; exact List.mem_cons_of_mem _ hx2)
        simpa [d2] using this
    constructor
    · intro s e hs h
      rw [move] at h
      cases hq : s.requestQueue with
      | nil => simp [hq] at h
      | cons f rest =>
        simp only [hq] at h
        split_ifs at h with c1 c2
        · exact arrive s e f UP rest hs hq h
        · exact arrive s e f DOWN rest hs hq h
    · intro s e hs h
      by_cases hq : s.requestQueue = []
      · rw [processRequests_empty _ _ hq] at h
        cases h
      · rw [processRequests_cons _ _ hq] at h
        cases hm : move k s with
        | error e2 =>
          simp only [hm] at h
          injection h with h
          exact h ▸ ihm s e2 hs hm
        | ok s1 =>
          simp only [hm] at h
          exact ihp s1 e (queueInBounds_of_frame s s1 ((move_processRequests_frame k).1 s s1 hm) hs) h

theorem requestFloor_inBounds (fuel : Nat) (s : Elevator) (f : Int) (e : Fault)
    (hs : QueueInBounds s) (h : requestFloor fuel s f = .error e) : e = Fault.outOfFuel := by
  by_cases hin : 1 ≤ f ∧ f ≤ s.numFloors
  · cases hr : s.requested f with
    | true => rw [requestFloor_duplicate fuel s f hin.1 hin.2 hr] at h; cases h
    | false =>
      rw [requestFloor_accept fuel s f hin.1 hin.2 hr] at h
      refine (move_processRequests_inBounds fuel).2 _ e ?_ h
      have h2 := hin.2
      simp only [Elevator.numFloors] at h2
      intro x hx
      simp only [List.mem_append, List.mem_singleton] at hx
      simp only [List.length_set]
      rcases hx with hx | rfl
      · exact hs x hx
      · omega
  · rw [requestFloor_invalid fuel s f (by omega)] at h
    cases h

theorem runRequests_inBounds (n fuel : Nat) : ∀ (reqs : List Int) (s : Elevator) (e : Fault),
    RestInv n s → runRequests fuel s reqs = .error e → e = Fault.outOfFuel := by
  intro reqs
  induction reqs with
  | nil => intro s e _ h; simp [runRequests] at h
  | cons a rest ih =>
    intro s e hs h
    rw [runRequests] at h
    cases hq : requestFloor fuel s a with
    | error e2 =>
      simp only [hq] at h
      injection h with h
      refine h ▸ requestFloor_inBounds fuel s a e2 ?_ hq
      intro x hx
      rw [hs.1] at hx
      cases hx
    | ok s1 =>
      simp only [hq] at h
      exact ih s1 e (restInv_requestFloor n fuel s s1 a hs hq) h

/-- C18: for every `numFloors ≥ 1` and every sequence of `requestFloor` calls
with arbitrary integer arguments from the initial state, no access to
`floorRequests` (by `floor` in `requestFloor`, by `currentFloor` in `move`)
falls outside the `numFloors + 1` entries of the vector: however much fuel the
run is given it never stops on an out-of-bounds index, the vector keeps its
`numFloors + 1` entries, and from `numFloors + 2` units of fuel on the run
completes. -/
theorem C18_accesses_in_bounds (numFloors : Nat) (_hn : 1 ≤ numFloors) (fuel : Nat)
    (reqs : List Int) :
    runRequests fuel (Elevator.init numFloors) reqs ≠ .error Fault.outOfBounds ∧
    (∀ s, runRequests fuel (Elevator.init numFloors) reqs = .ok s →
      s.floorRequests.length = numFloors + 1) ∧
    (numFloors + 2 ≤ fuel → ∃ s, runRequests fuel (Elevator.init numFloors) reqs = .ok s) := by
  refine ⟨?_, ?_, ?_⟩
  · intro h
    have := runRequests_inBounds numFloors fuel reqs _ _ (restInv_init numFloors) h
    cases this
  · intro s h
    exact (restInv_runRequests numFloors fuel reqs _ s (restInv_init numFloors) h).2.1
  · intro hf
    exact runRequests_total numFloors fuel hf reqs _ (restInv_init numFloors)

/-- Witness of C18: three floors and the calls `3, 0, 4, -2, 3, 1`. -/
theorem C18_accesses_in_bounds_witness :
    runRequests 5 (Elevator.init 3) [3, 0, 4, -2, 3, 1] ≠ .error Fault.outOfBounds ∧
    (∀ s, runRequests 5 (Elevator.init 3) [3, 0, 4, -2, 3, 1] = .ok s →
      s.floorRequests.length = 3 + 1) ∧
    (3 + 2 ≤ 5 → ∃ s, runRequests 5 (Elevator.init 3) [3, 0, 4, -2, 3, 1] = .ok s) :=
  C18_accesses_in_bounds 3 (by decide) 5 [3, 0, 4, -2, 3, 1]

/-! ## Claim C19: the calls of `move` -/

/-- Dropping the record of calls gives back `move` and `processRequests`. -/
theorem log_erasure : ∀ (fuel : Nat),
    (∀ s : Elevator, (moveLog fuel s).map Prod.fst = move fuel s) ∧
    (∀ s : Elevator, (processRequestsLog fuel s).map Prod.fst = processRequests fuel s) := by
  intro fuel
  induction fuel with
  | zero => exact ⟨fun _ => rfl, fun _ => rfl⟩
  | succ k ih =>
    obtain ⟨ihm, ihp⟩ := ih
    have arrive : ∀ (s : Elevator) (f d : Int) (rest : List Int),
        (match moveLoop k { s with requestQueue := rest, direction := d } f with
          | .error e => .error e
          | .ok s2 =>
            match writeFlag s2.floorRequests s2.currentFloor false with
            | .error e => .error e
            | .ok v =>
              match processRequestsLog k { s2 with floorRequests := v } with
              | .error e => .error e
              | .ok (r, evs) => .ok (r, Event.moveCalled (f :: rest) :: evs) :
                Except Fault (Elevator × List Event)).map Prod.fst =
        (match moveLoop k { s with requestQueue := rest, direction := d } f with
          | .error e => .error e
          | .ok s2 =>
            match writeFlag s2.floorRequests s2.currentFloor false with
            | .error e => .error e
            | .ok v => processRequests k { s2 with floorRequests := v } :
              Except Fault Elevator) := by
      intro s f d rest
      cases moveLoop k { s with requestQueue := rest, direction := d } f with
      | error e => rfl
      | ok s2 =>
        simp only []
        cases writeFlag s2.floorRequests s2.currentFloor false with
        | error e => rfl
        | ok v =>
          simp only []
          rw [← ihp]
          cases processRequestsLog k { s2 with floorRequests := v } with
          | error e => rfl
          | ok p => rfl
    constructor
    · intro s
      rw [moveLog, move]
      cases hq : s.requestQueue with
      | nil => rfl
      | cons f rest =>
        simp only []
        split_ifs with c1 c2
        · exact arrive s f UP rest
        · exact arrive s f DOWN rest
        · rfl
    · intro s
      rw [processRequestsLog, processRequests]
      split_ifs with c
      · rfl
      · rw [← ihm s]
        cases moveLog k s with
        | error e => rfl
        | ok p =>
          obtain ⟨s1, evs1⟩ := p
          simp only [Except.map]
          rw [← ihp s1]
          cases processRequestsLog k s1 with
          | error e => rfl
          | ok p2 => rfl

theorem requestFloorLog_erasure (fuel : Nat) (s : Elevator) (f : Int) :
    (requestFloorLog fuel s f).map Prod.fst = requestFloor fuel s f := by
  unfold requestFloorLog requestFloor
  split_ifs with c
  · rfl
  · cases readFlag s.floorRequests f with
    | error e => rfl
    | ok b =>
      cases b with
      | true => rfl
      | false =>
        simp only []
        cases writeFlag s.floorRequests f true with
        | error e => rfl
        | ok v => exact (log_erasure fuel).2 _

theorem processRequestsLog_empty (fuel : Nat) (s : Elevator) (h : s.requestQueue = []) :
    processRequestsLog (fuel + 1) s = .ok (s, []) := by
  simp [processRequestsLog, h]

theorem processRequestsLog_cons (fuel : Nat) (s : Elevator) (h : s.requestQueue ≠ []) :
    processRequestsLog (fuel + 1) s =
      match moveLog fuel s with
      | .error e => .error e
      | .ok (s1, evs1) =>
        match processRequestsLog fuel s1 with
        | .error e => .error e
        | .ok (r, evs2) => .ok (r, evs1 ++ evs2) := by
  simp [processRequestsLog, h]

theorem moveLog_same (fuel : Nat) (s : Elevator) (f : Int) (rest : List Int)
    (hq : s.requestQueue = f :: rest) (hc : f = s.currentFloor) :
    moveLog (fuel + 1) s = .ok ({ s with requestQueue := rest }, [Event.moveCalled (f :: rest)]) := by
  have a : ¬ f > s.currentFloor := by omega
  have b : ¬ f < s.currentFloor := by omega
  simp only [moveLog, hq, if_neg a, if_neg b]

theorem moveLog_travel (fuel : Nat) (s : Elevator) (f : Int) (rest : List Int)
    (hq : s.requestQueue = f :: rest) (hc : f ≠ s.currentFloor)
    (h0 : 0 ≤ f) (h3 : f < (s.floorRequests.length : Int))
    (hf : (f - s.currentFloor).natAbs + 1 ≤ fuel) :
    moveLog (fuel + 1) s =
      match processRequestsLog fuel
        { currentFloor := f
          direction := if f > s.currentFloor then UP else DOWN
          requestQueue := rest
          floorsVisited := s.floorsVisited ++ floorsBetween s.currentFloor f
          floorRequests := s.floorRequests.set f.toNat false
          requestHistory := s.requestHistory } with
      | .error e => .error e
      | .ok (r, evs) => .ok (r, Event.moveCalled (f :: rest) :: evs) := by
  by_cases hlt : f > s.currentFloor
  · have e := moveLoop_travel fuel
      { s with requestQueue := rest, direction := UP } f hc (by simp only [if_pos hlt]) hf
    simp only [moveLog, hq, if_pos hlt, e, writeFlag_inRange _ _ _ h0 h3]
  · have hgt : f < s.currentFloor := by omega
    have e := moveLoop_travel fuel
      { s with requestQueue := rest, direction := DOWN } f hc (by simp only [if_neg hlt]) hf
    simp only [moveLog, hq, if_neg hlt, if_pos hgt, e, writeFlag_inRange _ _ _ h0 h3]

theorem requestFloorLog_invalid (fuel : Nat) (s : Elevator) (floor : Int)
    (h : floor < 1 ∨ floor > s.numFloors) : requestFloorLog fuel s floor = .ok (s, []) := by
  have h1 : floor < 1 ∨ floor ≥ (s.floorRequests.length : Int) := by
    simp only [Elevator.numFloors] at h; omega
  simp [requestFloorLog, h1]

theorem requestFloorLog_duplicate (fuel : Nat) (s : Elevator) (f : Int)
    (h1 : 1 ≤ f) (h2 : f ≤ s.numFloors) (hr : s.requested f = true) :
    requestFloorLog fuel s f = .ok (s, []) := by
  have h0 : (0 : Int) ≤ f := by omega
  have h3 : f < (s.floorRequests.length : Int) := by
    simp only [Elevator.numFloors] at h2; omega
  have h4 : ¬ (f < 1 ∨ f ≥ (s.floorRequests.length : Int)) := by omega
  rw [requested_eq s f h0] at hr
  simp only [requestFloorLog, if_neg h4, readFlag_inRange _ _ h0 h3, hr]

theorem requestFloorLog_accept (fuel : Nat) (s : Elevator) (f : Int)
    (h1 : 1 ≤ f) (h2 : f ≤ s.numFloors) (hr : s.requested f = false) :
    requestFloorLog fuel s f =
      processRequestsLog fuel
        { s with
          floorRequests := s.floorRequests.set f.toNat true
          requestQueue := s.requestQueue ++ [f]
          requestHistory := f :: s.requestHistory } := by
  have h0 : (0 : Int) ≤ f := by omega
  have h3 : f < (s.floorRequests.length : Int) := by
    simp only [Elevator.numFloors] at h2; omega
  have h4 : ¬ (f < 1 ∨ f ≥ (s.floorRequests.length : Int)) := by omega
  rw [requested_eq s f h0] at hr
  simp only [requestFloorLog, if_neg h4, readFlag_inRange _ _ h0 h3, hr,
    writeFlag_inRange _ _ _ h0 h3]

/-- An accepted request for the current floor, issued at rest: `move` is
called once and finds the single entry. -/
theorem requestFloorLog_stall (fuel : Nat) (s : Elevator) (f : Int)
    (hq : s.requestQueue = []) (h1 : 1 ≤ f) (h2 : f ≤ s.numFloors)
    (hr : s.requested f = false) (hc : f = s.currentFloor) (hf : 2 ≤ fuel) :
    requestFloorLog fuel s f =
      .ok ({ s with
             floorRequests := s.floorRequests.set f.toNat true
             requestHistory := f :: s.requestHistory }, [Event.moveCalled [f]]) := by
  obtain ⟨k, rfl⟩ : ∃ k, fuel = k + 1 + 1 := ⟨fuel - 2, by omega⟩
  rw [requestFloorLog_accept _ s f h1 h2 hr, processRequestsLog_cons _ _ (by simp),
    moveLog_same k
      { s with
        floorRequests := s.floorRequests.set f.toNat true
        requestQueue := s.requestQueue ++ [f]
        requestHistory := f :: s.requestHistory } f [] (by simp [hq]) hc]
  simp only [hq]
  rw [processRequestsLog_empty _ _ rfl]
  rfl

/-- An accepted request for another floor, issued at rest: `move` is called
once and finds the single entry. -/
theorem requestFloorLog_travel (fuel : Nat) (s : Elevator) (f : Int)
    (hq : s.requestQueue = []) (h1 : 1 ≤ f) (h2 : f ≤ s.numFloors)
    (hr : s.requested f = false) (hc : f ≠ s.currentFloor)
    (hf : (f - s.currentFloor).natAbs + 3 ≤ fuel) :
    requestFloorLog fuel s f =
      .ok ({ currentFloor := f
             direction := if f > s.currentFloor then UP else DOWN
             requestQueue := []
             floorsVisited := s.floorsVisited ++ floorsBetween s.currentFloor f
             floorRequests := s.floorRequests
             requestHistory := f :: s.requestHistory }, [Event.moveCalled [f]]) := by
  have h0 : (0 : Int) ≤ f := by omega
  have h3 : f < (s.floorRequests.length : Int) := by
    simp only [Elevator.numFloors] at h2; omega
  obtain ⟨k, rfl⟩ : ∃ k, fuel = k + 1 + 1 + 1 := ⟨fuel - 3, by omega⟩
  rw [requestFloorLog_accept _ s f h1 h2 hr, processRequestsLog_cons _ _ (by simp),
    moveLog_travel (k + 1)
      { s with
        floorRequests := s.floorRequests.set f.toNat true
        requestQueue := s.requestQueue ++ [f]
        requestHistory := f :: s.requestHistory } f [] (by simp [hq]) hc h0 (by simpa using h3) (by simp only []; omega)]
  rw [requested_eq s f h0] at hr
  simp only [set_set_restore _ _ hr]
  rw [processRequestsLog_empty _ _ rfl]
  simp only [hq]
  rw [processRequestsLog_empty _ _ rfl]
  rfl

theorem requestFloorLog_rest (n fuel : Nat) (s : Elevator) (f : Int)
    (hs : RestInv n s) (hf : n + 2 ≤ fuel) :
    ∃ r evs, requestFloorLog fuel s f = .ok (r, evs) ∧ RestInv n r ∧
      ∀ e ∈ evs, ∃ g, e = Event.moveCalled [g] := by
  have hq := hs.1
  by_cases hin : 1 ≤ f ∧ f ≤ s.numFloors
  · cases hr : s.requested f with
    | true =>
      exact ⟨s, [], requestFloorLog_duplicate fuel s f hin.1 hin.2 hr, hs,
        fun e he => absurd he (List.not_mem_nil e)⟩
    | false =>
      by_cases hc : f = s.currentFloor
      · refine ⟨_, _, requestFloorLog_stall fuel s f hq hin.1 hin.2 hr hc (by omega),
          restInv_requestFloor n fuel s _ f hs
            (requestFloor_stall fuel s f hq hin.1 hin.2 hr hc (by omega)), ?_⟩
        intro e he
        exact ⟨f, List.mem_singleton.mp he⟩
      · have hfuel : (f - s.currentFloor).natAbs + 3 ≤ fuel := by
          obtain ⟨_, hl, h1, h2, _⟩ := hs
          have a2 := hin.2
          simp only [Elevator.numFloors, hl] at a2
          push_cast at a2
          have hn : 1 ≤ (n : Int) := by omega
          rw [max_eq_left hn] at h2
          omega
        refine ⟨_, _, requestFloorLog_travel fuel s f hq hin.1 hin.2 hr hc hfuel,
          restInv_requestFloor n fuel s _ f hs
            (requestFloor_travel fuel s f hq hin.1 hin.2 hr hc hfuel), ?_⟩
        intro e he
        exact ⟨f, List.mem_singleton.mp he⟩
  · exact ⟨s, [], requestFloorLog_invalid fuel s f (by omega), hs,
      fun e he => absurd he (List.not_mem_nil e)⟩

theorem runOp_rest (n fuel : Nat) (s : Elevator) (op : Op)
    (hs : RestInv n s) (hf : n + 2 ≤ fuel) :
    ∃ r evs, runOp fuel s op = .ok (r, evs) ∧ RestInv n r ∧
      ∀ e ∈ evs, ∃ g, e = Event.moveCalled [g] := by
  cases op with
  | requestFloor floor => exact requestFloorLog_rest n fuel s floor hs hf
  | idleTime seconds => exact ⟨s, [], rfl, hs, fun e he => absurd he (List.not_mem_nil e)⟩
  | viewStatus => exact ⟨s, [], rfl, hs, fun e he => absurd he (List.not_mem_nil e)⟩
  | printFloorsVisited => exact ⟨s, [], rfl, hs, fun e he => absurd he (List.not_mem_nil e)⟩

theorem runOps_rest (n fuel : Nat) (hf : n + 2 ≤ fuel) : ∀ (ops : List Op) (s : Elevator),
    RestInv n s →
      ∃ r evs, runOps fuel s ops = .ok (r, evs) ∧ RestInv n r ∧
        ∀ e ∈ evs, ∃ g, e = Event.moveCalled [g] := by
  intro ops
  induction ops with
  | nil => intro s hs; exact ⟨s, [], rfl, hs, fun e he => absurd he (List.not_mem_nil e)⟩
  | cons op rest ih =>
    intro s hs
    obtain ⟨s1, evs1, e1, hs1, he1⟩ := runOp_rest n fuel s op hs hf
    obtain ⟨r, evs2, e2, hr, he2⟩ := ih s1 hs1
    refine ⟨r, evs1 ++ evs2, by rw [runOps, e1]; simp only [e2], hr, ?_⟩
    intro e he
    rcases List.mem_append.mp he with h | h
    · exact he1 e h
    · exact he2 e h

/-- C19: under the operations that `main` issues from the initial state
(`requestFloor`, `idleTime`, `viewStatus`, `printFloorsVisited`, in any order
and with any arguments), after the first `k` operations, for every `k`: the
operations have returned, `pendingRequests` is empty (so that the push of a
next accepted request makes it hold one entry), every call of `move()` made so
far found exactly one pending entry, and the empty-queue branch of `move()` was
never executed. -/
theorem C19_move_finds_one_entry (numFloors fuel : Nat) (hf : numFloors + 2 ≤ fuel)
    (ops : List Op) (k : Nat) :
    ∃ r evs, runOps fuel (Elevator.init numFloors) (ops.take k) = .ok (r, evs) ∧
      r.requestQueue = [] ∧
      (∀ floor : Int, (r.requestQueue ++ [floor]).length = 1) ∧
      (∀ e ∈ evs, ∃ g, e = Event.moveCalled [g]) ∧
      Event.stayedIdle ∉ evs := by
  obtain ⟨r, evs, e, hr, hev⟩ :=
    runOps_rest numFloors fuel hf (ops.take k) _ (restInv_init numFloors)
  refine ⟨r, evs, e, hr.1, fun floor => by rw [hr.1]; rfl, hev, ?_⟩
  intro hmem
  obtain ⟨g, hg⟩ := hev _ hmem
  cases hg

/-- Witness of C19: three floors and the operations `requestFloor(3)`,
`viewStatus()`, `requestFloor(3)`, `idleTime(2)`, `printFloorsVisited()`; the
two accepted requests each call `move()` once, on the queue `[3]`. -/
theorem C19_move_finds_one_entry_witness :
    (∃ r evs,
      runOps 5 (Elevator.init 3)
        ([Op.requestFloor 3, Op.viewStatus, Op.requestFloor 3, Op.idleTime 2,
          Op.printFloorsVisited].take 5) = .ok (r, evs) ∧
      r.requestQueue = [] ∧
      (∀ floor : Int, (r.requestQueue ++ [floor]).length = 1) ∧
      (∀ e ∈ evs, ∃ g, e = Event.moveCalled [g]) ∧
      Event.stayedIdle ∉ evs) ∧
    runOps 5 (Elevator.init 3) [Op.requestFloor 3, Op.viewStatus, Op.requestFloor 3] =
      .ok ({ currentFloor := 3, direction := UP, requestQueue := [], floorsVisited := [2, 3],
             floorRequests := [false, false, false, true], requestHistory := [3, 3] },
           [Event.moveCalled [3], Event.moveCalled [3]]) :=
  ⟨C19_move_finds_one_entry 3 5 (by decide)
    [Op.requestFloor 3, Op.viewStatus, Op.requestFloor 3, Op.idleTime 2, Op.printFloorsVisited] 5,
    by decide⟩

end ElevatorSim
